import Mathlib

/-!
# repoSpanner backends of libgit2: reference-list parser, reference cache, object fetcher

A shallow embedding of `src/refdb_repospanner.c`, `src/odb_repospanner.c` and
`src/repospanner.c`.

Conventions of the embedding.

* A byte is a `Nat` (`0` is NUL, `10` is the newline).
* A `git_buf` is the list of its `size` bytes; `git_buf_cstr` gives the memory that starts
  at `ptr`: the contents followed by the terminating NUL that `git_buf` always keeps at
  `ptr[size]`.
* A `const char *` into that memory is an offset; the C string at an offset runs up to the
  first NUL (`cstr`).
* Heap allocation (`git__calloc`, pool allocation, `git_buf_put`) is taken to succeed.
-/

namespace Repospanner

/-! ## Error codes -/

abbrev GIT_OK : Int := 0
abbrev GIT_ERROR : Int := -1
abbrev GIT_ENOTFOUND : Int := -3
abbrev GIT_ITEROVER : Int := -31

/-! ## Bytes and C strings -/

/-- The bytes of a string literal, without a terminator. -/
def cbytes (s : String) : List Nat := s.toList.map Char.toNat

/-- The C string that starts at offset `p` of memory `m`: the bytes before the first NUL. -/
def cstr (m : List Nat) (p : Nat) : List Nat := (m.drop p).takeWhile (fun b => b ≠ 0)

/-- C `strlen` of the string at offset `p`. -/
def strlen (m : List Nat) (p : Nat) : Nat := (cstr m p).length

/-- C `strcmp` on two C strings (given without their terminators): bytes are compared as
unsigned values and the end of a string counts as smallest; only the sign of the result is
kept (`-1`, `0`, `1`). -/
def strcmp : List Nat → List Nat → Int
  | [], [] => 0
  | [], _ :: _ => -1
  | _ :: _, [] => 1
  | a :: as, b :: bs => if a = b then strcmp as bs else if a < b then -1 else 1

/-! ## Object ids -/

/-- Modelled from the spec: `git__fromhex`, the hexadecimal digit table of the library
(not in src/): the value of a hexadecimal character, `-1` for every other byte. -/
def git__fromhex (c : Nat) : Int :=
  if 48 ≤ c ∧ c ≤ 57 then (c : Int) - 48
  else if 97 ≤ c ∧ c ≤ 102 then (c : Int) - 87
  else if 65 ≤ c ∧ c ≤ 70 then (c : Int) - 55
  else -1

/-- The all-zero object id (20 raw bytes), as left by `git__calloc`. -/
def zero_oid : List Nat := List.replicate 20 0

/-- The digit loop of `git_oid_fromstrn`: `n` digits remain, `p` is the index of the next
one, `id` the raw bytes written so far. -/
def git_oid_fromstrn_loop (m : List Nat) (str : Nat) : Nat → Nat → List Nat → Int × List Nat
  | 0, _, id => (0, id)
  | n + 1, p, id =>
    let v := git__fromhex (m.getD (str + p) 0)
    if v < 0 then (-1, id)
    else git_oid_fromstrn_loop m str n (p + 1)
      (id.set (p / 2) (id.getD (p / 2) 0 ||| (v.toNat <<< (if p % 2 ≠ 0 then 0 else 4))))

/-- Modelled from the spec: `git_oid_fromstrn` of the library (not in src/), which parses
`length` hexadecimal characters at `str` into a raw object id. A length of `0` or above `40`
is refused before anything is written; otherwise the id is cleared and filled digit by
digit, and the first non-hexadecimal byte stops the parse with an error. Returns the code
and the contents of `out` afterwards. -/
def git_oid_fromstrn (out : List Nat) (m : List Nat) (str : Nat) (length : Nat) :
    Int × List Nat :=
  if length = 0 then (-1, out)
  else if length > 40 then (-1, out)
  else git_oid_fromstrn_loop m str length 0 zero_oid

/-! ## The sorted cache of reference records -/

/-- Record of the reference cache, `struct packref`. -/
structure packref where
  oid : List Nat
  peel : List Nat
  flags : Nat
  name : List Nat
deriving DecidableEq, Repr

/-- Modelled from the spec: `git_sortedcache` of the library (not in src/), a name-keyed
collection of records with unique names. The items are held in insertion order and are
sorted by the comparison function when they are read by position. -/
structure git_sortedcache where
  items : List packref
deriving DecidableEq, Repr

/-- Modelled from the spec: `git_sortedcache_new`, the empty collection. -/
def git_sortedcache_new : git_sortedcache := ⟨[]⟩

/-- Modelled from the spec: `git_sortedcache_lookup`, the exact-name lookup. -/
def git_sortedcache_lookup (sc : git_sortedcache) (key : List Nat) : Option packref :=
  sc.items.find? (fun r => r.name = key)

/-- Modelled from the spec: `git_sortedcache_upsert`, which hands out the record stored under
`key` and first inserts a zeroed record when there is none. -/
def git_sortedcache_upsert (sc : git_sortedcache) (key : List Nat) : git_sortedcache :=
  match git_sortedcache_lookup sc key with
  | some _ => sc
  | none => ⟨sc.items ++ [⟨zero_oid, zero_oid, 0, key⟩]⟩

/-- The assignment `ref->oid = oid` through the pointer that `git_sortedcache_upsert` handed
out for `key`. -/
def store_oid (sc : git_sortedcache) (key : List Nat) (oid : List Nat) : git_sortedcache :=
  ⟨sc.items.map (fun r => if r.name = key then { r with oid := oid } else r)⟩

/-- `packref_cmp`. -/
def packref_cmp (a b : packref) : Int := strcmp a.name b.name

/-- Modelled from the spec: `git_sortedcache_entrycount`. -/
def git_sortedcache_entrycount (sc : git_sortedcache) : Nat := sc.items.length

/-- The items in the order of `packref_cmp`, as the library sorts them before a read by
position. -/
def sorted_items (sc : git_sortedcache) : List packref :=
  sc.items.insertionSort (fun a b => packref_cmp a b ≤ 0)

/-- Modelled from the spec: `git_sortedcache_entry`, the record at a position of the sorted
order. -/
def git_sortedcache_entry (sc : git_sortedcache) (pos : Nat) : Option packref :=
  (sorted_items sc).get? pos

/-- Modelled from the spec: `git_sortedcache_copy`, the private snapshot of a collection. -/
def git_sortedcache_copy (src : git_sortedcache) : git_sortedcache :=
  ⟨sorted_items src⟩

/-! ## The streaming parser -/

/-- State of one reference-list fetch, `struct refretrieve`. -/
structure refretrieve where
  buffer : List Nat
  target : git_sortedcache
deriving DecidableEq, Repr

/-- Modelled from the spec: `git_buf_cstr`, the memory at the buffer pointer: the contents
and the terminating NUL. -/
def git_buf_cstr (buffer : List Nat) : List Nat := buffer ++ [0]

/-- Modelled from the spec: `git_buf_put`, which appends bytes to the buffer. -/
def git_buf_put (buffer : List Nat) (data : List Nat) : List Nat := buffer ++ data

/-- Modelled from the spec: `git_buf_consume`, which discards the bytes before offset `stop`
from the front of the buffer (and does nothing for an offset of `0` or past the end). -/
def git_buf_consume (buffer : List Nat) (stop : Nat) : List Nat :=
  if 0 < stop ∧ stop ≤ buffer.length then buffer.drop stop else buffer

/-- `parse_symb_ref`: `name` and `val` are the C strings the pointers designate. -/
def parse_symb_ref (target : git_sortedcache) (name val : List Nat) : Int × git_sortedcache :=
  match git_sortedcache_lookup target val with
  | none => (GIT_OK, target)
  | some realref =>
    let target1 := git_sortedcache_upsert target name
    (GIT_OK, store_oid target1 name realref.oid)

/-- The field scan of `parse_ref` over the bytes of `[pos, stop)`: returns the pointers
`name` and `val` (`none` is `NULL`). -/
def parse_ref_scan : List Nat → Nat → Option Nat → Option Nat × Option Nat
  | [], _, name => (name, none)
  | b :: rest, pos, name =>
    if b ≠ 0 then parse_ref_scan rest (pos + 1) name
    else
      match name with
      | none => parse_ref_scan rest (pos + 1) (some (pos + 1))
      | some n => (some n, some (pos + 1))

/-- `parse_ref` on memory `m`, with `start` and `stop` the offsets of the line's first byte
and of its newline. -/
def parse_ref (target : git_sortedcache) (m : List Nat) (start stop : Nat) :
    Int × git_sortedcache :=
  let type := start
  match parse_ref_scan ((m.drop start).take (stop - start)) start none with
  | (some name, some val) =>
    if strcmp (cstr m type) (cbytes "real") = 0 ∧ strcmp (cstr m type) (cbytes "symb") = 0 then
      (GIT_ERROR, target)
    else if strcmp (cstr m type) (cbytes "symb") = 0 then
      parse_symb_ref target (cstr m name) (cstr m val)
    else if strcmp (cstr m type) (cbytes "real") ≠ 0 ∧ strlen m val ≠ 40 then
      (GIT_ERROR, target)
    else
      let target1 := git_sortedcache_upsert target (cstr m name)
      let old := ((git_sortedcache_lookup target1 (cstr m name)).map packref.oid).getD zero_oid
      let r := git_oid_fromstrn old m val 40
      let target2 := store_oid target1 (cstr m name) r.2
      if r.1 ≠ GIT_OK then (GIT_ERROR, target2) else (GIT_OK, target2)
  | _ => (GIT_ERROR, target)

/-- The newline search of `ref_write_parse`: offset of the first newline, scanning from
offset `i`. -/
def find_newline : List Nat → Nat → Option Nat
  | [], _ => none
  | b :: rest, i => if b = 10 then some i else find_newline rest (i + 1)

/-- The `while(true)` loop of `ref_write_parse`, with a bound on the number of iterations;
`none` when the bound is reached. -/
def ref_write_parse_loop : Nat → refretrieve → Bool → Option (Int × refretrieve)
  | 0, _, _ => none
  | fuel + 1, data, final =>
    let bufval := git_buf_cstr data.buffer
    match find_newline data.buffer 0 with
    | none =>
      if !final then some (GIT_OK, data)
      else if data.buffer.length = 0 then some (GIT_OK, data)
      else some (GIT_ERROR, data)
    | some newlinepoint =>
      let r := parse_ref data.target bufval 0 newlinepoint
      if r.1 ≠ GIT_OK then some (r.1, { data with target := r.2 })
      else
        ref_write_parse_loop fuel
          { buffer := git_buf_consume data.buffer (newlinepoint + 1), target := r.2 } final

/-- `ref_write_parse`: every iteration but the last consumes at least one byte, so one more
iteration than the buffer has bytes is enough. -/
def ref_write_parse (data : refretrieve) (final : Bool) : Option (Int × refretrieve) :=
  ref_write_parse_loop (data.buffer.length + 1) data final

/-- `ref_write_callback`: the chunk `ptr` of `nmemb` bytes is appended and the buffer is
parsed in non-final mode; returns `nmemb`, or `GIT_ERROR` for a failed parse. -/
def ref_write_callback (ptr : List Nat) (data : refretrieve) : Option (Int × refretrieve) :=
  match ref_write_parse { data with buffer := git_buf_put data.buffer ptr } false with
  | none => none
  | some (rc, data1) => if rc = GIT_OK then some ((ptr.length : Int), data1) else some (GIT_ERROR, data1)

/-- A transfer that hands the chunks of the response body to `ref_write_callback` one at a
time and stops at the first chunk for which the callback does not return its length. The
flag tells whether every callback accepted its chunk. -/
def feed_chunks : List (List Nat) → refretrieve → Option (Bool × refretrieve)
  | [], data => some (true, data)
  | c :: cs, data =>
    match ref_write_callback c data with
    | none => none
    | some (n, data1) => if n = (c.length : Int) then feed_chunks cs data1 else some (false, data1)

/-- The parsing part of a load: the chunks go through `ref_write_callback` into a fresh
`refretrieve`, then `ref_write_parse` runs in final mode. A chunk refused by the callback
ends the load with `GIT_ERROR`. -/
def load_stream (chunks : List (List Nat)) : Option (Int × refretrieve) :=
  match feed_chunks chunks ⟨[], git_sortedcache_new⟩ with
  | none => none
  | some (false, data) => some (GIT_ERROR, data)
  | some (true, data) => ref_write_parse data true

/-! ## Loading, lookup and iteration -/

/-- Reference handed to the caller by `git_reference__alloc`. -/
structure git_reference where
  name : List Nat
  oid : List Nat
  peel : List Nat
deriving DecidableEq, Repr

/-- Backend of the reference database, `struct refdb_rs_backend`; `none` is a `NULL` cache. -/
structure refdb_rs_backend where
  refcache : Option git_sortedcache
deriving DecidableEq, Repr

abbrev CURLE_OK : Nat := 0
abbrev CURLE_HTTP_RETURNED_ERROR : Nat := 22
abbrev CURLE_WRITE_ERROR : Nat := 23

/-- `repospanner_check_curl`, given the result of `curl_easy_perform` and the response code
reported by `curl_easy_getinfo`. -/
def repospanner_check_curl (error : Nat) (response_code : Int) : Int :=
  if error = CURLE_OK then GIT_OK
  else if error = CURLE_HTTP_RETURNED_ERROR then
    if response_code = 404 then GIT_ENOTFOUND else GIT_ERROR
  else GIT_ERROR

/-- What the collaborators of one reference-list load do: the return codes of
`git_sortedcache_new`, `repospanner_prepare_request` and `git_buf_init`, whether the
`git__calloc` of the retriever succeeds, the chunks of the response body, and the result
and response code of the transfer when no callback stops it. -/
structure load_env where
  sortedcache_new : Int
  prepare_request : Int
  calloc_ok : Bool
  buf_init : Int
  body : List (List Nat)
  curl_result : Nat
  response_code : Int
deriving DecidableEq, Repr

/-- Outcome of `_ensure_refs_loaded`: the return code, the backend afterwards and the number
of requests that were prepared. -/
structure ensure_result where
  error : Int
  backend : refdb_rs_backend
  requests : Nat
deriving DecidableEq, Repr

/-- What a call of `_ensure_refs_loaded` comes to: it returns, or it has no defined result
because the cleanup at `fail` reads the locals `req` and `retriever` while nothing was
assigned to them. -/
inductive ensure_outcome where
  | returned (r : ensure_result)
  | undefined
deriving DecidableEq, Repr

/-- The transfer of `curl_easy_perform` with `ref_write_callback` installed: a chunk refused
by the callback aborts the transfer with `CURLE_WRITE_ERROR`. -/
def curl_easy_perform_refs (env : load_env) (retriever : refretrieve) :
    Option (Nat × refretrieve) :=
  match feed_chunks env.body retriever with
  | none => none
  | some (true, data) => some (env.curl_result, data)
  | some (false, data) => some (CURLE_WRITE_ERROR, data)

/-- `_ensure_refs_loaded`. On the `fail` path the new cache is freed and the backend is left
as it was. `req` and `retriever` are declared without a value and
`repospanner_prepare_request` writes `req` on success only, so the jump to `fail` after a
failed preparation tests and frees two pointers that were never assigned: that call has no
defined result. On the later jumps to `fail` both locals have been assigned. -/
def _ensure_refs_loaded (env : load_env) (backend : refdb_rs_backend) : Option ensure_outcome :=
  if backend.refcache ≠ none then some (.returned ⟨GIT_OK, backend, 0⟩)
  else if env.sortedcache_new < 0 then some (.returned ⟨env.sortedcache_new, backend, 0⟩)
  else
    let newcache := git_sortedcache_new
    let fail (error : Int) : Option ensure_outcome :=
      some (.returned ⟨if error ≠ 0 then error else GIT_ERROR, backend, 1⟩)
    if env.prepare_request ≠ GIT_OK then some .undefined
    else if !env.calloc_ok then fail env.prepare_request
    else if env.buf_init ≠ GIT_OK then fail env.buf_init
    else
      match curl_easy_perform_refs env ⟨[], newcache⟩ with
      | none => none
      | some (code, retriever) =>
        if repospanner_check_curl code env.response_code ≠ GIT_OK then
          fail (repospanner_check_curl code env.response_code)
        else
          match ref_write_parse retriever true with
          | none => none
          | some (rc, retriever1) =>
            if rc ≠ GIT_OK then fail (repospanner_check_curl code env.response_code)
            else
              some (.returned ⟨GIT_OK, { backend with refcache := some retriever1.target }, 1⟩)

/-- `refdb_rs__lookup`: the code, the reference written to `out` and the backend afterwards;
`none` when `_ensure_refs_loaded` has no defined result. -/
def refdb_rs__lookup (env : load_env) (backend : refdb_rs_backend) (ref_name : List Nat) :
    Option (Int × Option git_reference × refdb_rs_backend) :=
  match _ensure_refs_loaded env backend with
  | none => none
  | some .undefined => none
  | some (.returned r) =>
    if r.error ≠ GIT_OK then some (r.error, none, r.backend)
    else
      match r.backend.refcache with
      | none => some (GIT_ERROR, none, r.backend)
      | some refcache =>
        match git_sortedcache_lookup refcache ref_name with
        | none => some (GIT_ENOTFOUND, none, r.backend)
        | some entry => some (GIT_OK, some ⟨ref_name, entry.oid, entry.peel⟩, r.backend)

/-- Iterator over a snapshot of the cache, `struct refdb_rs_iter`. -/
structure refdb_rs_iter where
  glob : Option (List Nat)
  refcache : git_sortedcache
  current_pos : Nat
deriving DecidableEq, Repr

/-- `refdb_rs__iterator` on a backend whose cache is loaded. -/
def refdb_rs__iterator (refcache : git_sortedcache) (glob : Option (List Nat)) : refdb_rs_iter :=
  { glob := glob, refcache := git_sortedcache_copy refcache, current_pos := 0 }

/-- The `while` loop of `refdb_rs__iterator_next`, with a bound on the number of iterations
(`none` when the bound is reached). `fnmatch pattern name` stands for
`p_fnmatch(pattern, name, 0)`. -/
def refdb_rs__iterator_next_loop (fnmatch : List Nat → List Nat → Int) :
    Nat → refdb_rs_iter → Option (Int × Option git_reference × refdb_rs_iter)
  | 0, _ => none
  | fuel + 1, iter =>
    if iter.current_pos < git_sortedcache_entrycount iter.refcache then
      let iter1 := { iter with current_pos := iter.current_pos + 1 }
      match git_sortedcache_entry iter.refcache iter.current_pos with
      | none => some (GIT_ITEROVER, none, iter1)
      | some ref =>
        match iter.glob with
        | some glob =>
          if fnmatch glob ref.name ≠ 0 then refdb_rs__iterator_next_loop fnmatch fuel iter1
          else some (GIT_OK, some ⟨ref.name, ref.oid, ref.peel⟩, iter1)
        | none => some (GIT_OK, some ⟨ref.name, ref.oid, ref.peel⟩, iter1)
    else some (GIT_ITEROVER, none, iter)

/-- `refdb_rs__iterator_next`: every iteration advances `current_pos`, so one more iteration
than there are entries left is enough. -/
def refdb_rs__iterator_next (fnmatch : List Nat → List Nat → Int) (iter : refdb_rs_iter) :
    Option (Int × Option git_reference × refdb_rs_iter) :=
  refdb_rs__iterator_next_loop fnmatch
    (git_sortedcache_entrycount iter.refcache - iter.current_pos + 1) iter

/-- A caller that calls `next` until it stops returning `GIT_OK`: the references it got and
the code of the last call; `calls` bounds the number of calls. -/
def iterate_all (fnmatch : List Nat → List Nat → Int) :
    Nat → refdb_rs_iter → Option (List git_reference × Int)
  | 0, _ => none
  | calls + 1, iter =>
    match refdb_rs__iterator_next fnmatch iter with
    | none => none
    | some (rc, out, iter1) =>
      match rc, out with
      | 0, some ref =>
        match iterate_all fnmatch calls iter1 with
        | none => none
        | some (refs, last) => some (ref :: refs, last)
      | _, _ => some ([], rc)

/-- All references of an iteration over `refcache`: at most one call per entry and one more
for the end of the sequence. -/
def iterate (fnmatch : List Nat → List Nat → Int) (refcache : git_sortedcache)
    (glob : Option (List Nat)) : Option (List git_reference × Int) :=
  iterate_all fnmatch (git_sortedcache_entrycount refcache + 1) (refdb_rs__iterator refcache glob)

/-- Continuation of a `*` in a pattern: `rest` is tried on every suffix of the name. -/
def glob_star (rest : List Nat → Int) : List Nat → Int
  | [] => rest []
  | c :: s => if rest (c :: s) = 0 then 0 else glob_star rest s

/-- Modelled from the spec: `p_fnmatch(pattern, name, 0)` of the library (not in src/), for
patterns made of literal bytes and the `*` wildcard (byte 42), which matches any run of
bytes, path separators included. Returns `0` for a match and `1` otherwise. -/
def p_fnmatch : List Nat → List Nat → Int
  | [], s => if s = [] then 0 else 1
  | c :: ps, s =>
    if c = 42 then glob_star (p_fnmatch ps) s
    else
      match s with
      | [] => 1
      | d :: s1 => if c = d then p_fnmatch ps s1 else 1

/-! ## The object fetcher -/

/-- Record of the reference-list wire format: three fields. -/
structure ref_record where
  type : List Nat
  name : List Nat
  value : List Nat
deriving DecidableEq, Repr

/-- The bytes of a record on the wire: `type NUL name NUL value` and the newline. -/
def encode_record (r : ref_record) : List Nat :=
  r.type ++ 0 :: (r.name ++ 0 :: (r.value ++ [10]))

/-- The bytes of a stream of newline-terminated records. -/
def encode_stream : List ref_record → List Nat
  | [] => []
  | r :: rs => encode_record r ++ encode_stream rs

/-- Hexadecimal characters: `0`-`9`, `a`-`f`, `A`-`F`. -/
def is_hex (c : Nat) : Prop := (48 ≤ c ∧ c ≤ 57) ∨ (97 ≤ c ∧ c ≤ 102) ∨ (65 ≤ c ∧ c ≤ 70)

instance (c : Nat) : Decidable (is_hex c) :=
  inferInstanceAs (Decidable ((48 ≤ c ∧ c ≤ 57) ∨ (97 ≤ c ∧ c ≤ 102) ∨ (65 ≤ c ∧ c ≤ 70)))

/-- The value of a hexadecimal character. -/
def hex_value (c : Nat) : Nat :=
  if c ≤ 57 then c - 48 else if 97 ≤ c then c - 87 else c - 55

/-- The raw object id written by a string of hexadecimal characters: one byte for every two
characters, the first of them the high half. -/
def hex_oid : List Nat → List Nat
  | hi :: lo :: rest => (16 * hex_value hi + hex_value lo) :: hex_oid rest
  | _ => []

/-- A name of the wire format: no NUL and no newline. -/
def valid_name (n : List Nat) : Prop := 0 ∉ n ∧ 10 ∉ n

instance (n : List Nat) : Decidable (valid_name n) :=
  inferInstanceAs (Decidable (0 ∉ n ∧ 10 ∉ n))

/-- A `"real"` record of the wire format: the value is 40 hexadecimal characters. -/
def valid_real (r : ref_record) : Prop :=
  r.type = cbytes "real" ∧ valid_name r.name ∧ r.value.length = 40 ∧ ∀ c ∈ r.value, is_hex c

instance (r : ref_record) : Decidable (valid_real r) :=
  inferInstanceAs (Decidable (r.type = cbytes "real" ∧ valid_name r.name ∧ r.value.length = 40 ∧
    ∀ c ∈ r.value, is_hex c))

/-- A `"symb"` record of the wire format: the value is a name. -/
def valid_symb (r : ref_record) : Prop :=
  r.type = cbytes "symb" ∧ valid_name r.name ∧ valid_name r.value

instance (r : ref_record) : Decidable (valid_symb r) :=
  inferInstanceAs (Decidable (r.type = cbytes "symb" ∧ valid_name r.name ∧ valid_name r.value))

/-- A record of the wire format. -/
def valid_record (r : ref_record) : Prop := valid_real r ∨ valid_symb r

instance (r : ref_record) : Decidable (valid_record r) :=
  inferInstanceAs (Decidable (valid_real r ∨ valid_symb r))

/-- The bytes after the last newline of a buffer (all of it when it has no newline). -/
def residual (l : List Nat) : List Nat := (l.reverse.takeWhile (fun b => b ≠ 10)).reverse

/-- The last record of a stream that carries a name. -/
def last_record (rs : List ref_record) (name : List Nat) : Option ref_record :=
  rs.reverse.find? (fun r => r.name = name)

/-- What a load does with a record of the wire format: a `"real"` record stores the object
id of its value under its name, and any other record (a `"symb"` one) leaves the cache as it
is. -/
def apply_record (sc : git_sortedcache) (r : ref_record) : git_sortedcache :=
  if r.type = cbytes "real" then
    store_oid (git_sortedcache_upsert sc r.name) r.name (hex_oid r.value)
  else sc

/-- The cache after the records of a stream, in stream order. -/
def apply_records (sc : git_sortedcache) (rs : List ref_record) : git_sortedcache :=
  rs.foldl apply_record sc

/-- No name of the cache has a newline in it. -/
def no_newline_names (sc : git_sortedcache) : Prop := ∀ e ∈ sc.items, 10 ∉ e.name

/-- The bytes of a record before its newline. -/
def record_body (r : ref_record) : List Nat := r.type ++ 0 :: (r.name ++ 0 :: r.value)

/-- Every record of the cache has the peeled id and the flags that allocation left: zero. -/
def zero_extras (sc : git_sortedcache) : Prop := ∀ e ∈ sc.items, e.peel = zero_oid ∧ e.flags = 0

/-- The names of the cache are pairwise different. -/
def names_nodup (sc : git_sortedcache) : Prop := (sc.items.map packref.name).Nodup

/-- Whether the iterator hands out a record: with a glob, `p_fnmatch` has to return `0`. -/
def entry_matches (fnmatch : List Nat → List Nat → Int) (glob : Option (List Nat))
    (e : packref) : Bool :=
  match glob with
  | some g => decide (fnmatch g e.name = 0)
  | none => true

/-- The reference that `git_reference__alloc` makes of a record. -/
def packref_ref (e : packref) : git_reference := ⟨e.name, e.oid, e.peel⟩

/-- Every step of a load succeeds: the new cache, the request, the retriever and its
buffer, every callback of the transfer, the transfer itself and the final-mode parse. -/
def load_succeeds (env : load_env) : Prop :=
  0 ≤ env.sortedcache_new ∧ env.prepare_request = GIT_OK ∧ env.calloc_ok = true ∧
  env.buf_init = GIT_OK ∧
  ∃ data, feed_chunks env.body ⟨[], git_sortedcache_new⟩ = some (true, data) ∧
    env.curl_result = CURLE_OK ∧ ∃ data1, ref_write_parse data true = some (GIT_OK, data1)

/-! ## The client registry -/

/-- The strings that `repospanner_get_client` sets on the base transport handle (`none` while
an option is not set); the fixed policy options are the same for every handle. -/
structure curl_handle where
  useragent : Option (List Nat)
  sslcert : Option (List Nat)
  sslkey : Option (List Nat)
  cainfo : Option (List Nat)
deriving DecidableEq, Repr

/-- Client of one repository, `struct repoSpanner_client`; `none` is a `NULL` base handle and
`share` tells whether the share handle is set. `freed` is not a field of the C struct: it
tells that `git__free` was called on the memory of the record. -/
structure repoSpanner_client where
  basehandle : Option curl_handle
  share : Bool
  baseurl : List Nat
  gitdir : List Nat
  freed : Bool
deriving DecidableEq, Repr

/-- What one call of `repospanner_get_client` finds: the `gitdir` of the repository, whether
it has a configuration, the code and value of `git_config_get_bool` for
`repospanner.enabled`, the code of `git_sortedcache_wlock`, whether `curl_easy_init` and
`curl_share_init` give a handle, the code and text of `repospanner_user_agent`, and the code
and value of `git_config_get_string_buf` for `repospanner.url`, `.cert`, `.key` and
`.cacert`. -/
structure client_env where
  gitdir : List Nat
  has_config : Bool
  enabled : Int × Bool
  wlock : Int
  easy_init_ok : Bool
  share_init_ok : Bool
  user_agent : Int × List Nat
  url : Int × List Nat
  cert : Int × List Nat
  key : Int × List Nat
  cacert : Int × List Nat
deriving DecidableEq, Repr

/-- Outcome of `repospanner_get_client`: the return code, the client written to `out`
(`none` when `out` is not written), the registry `global_clients` afterwards, and the number
of base transport handles the call built. -/
structure client_result where
  error : Int
  out : Option repoSpanner_client
  registry : List repoSpanner_client
  constructed : Nat
deriving DecidableEq, Repr

/-- Modelled from the spec: `git_sortedcache_lookup` on the registry, the lookup of the
client stored under a `gitdir`. -/
def client_lookup (global_clients : List repoSpanner_client) (gitdir : List Nat) :
    Option repoSpanner_client :=
  global_clients.find? (fun c => c.gitdir = gitdir)

/-- Modelled from the spec: `git_buf_shorten`, which drops `amount` bytes from the end of the
buffer and clears a buffer that has no more than `amount` bytes. -/
def git_buf_shorten (buffer : List Nat) (amount : Nat) : List Nat :=
  if buffer.length > amount then buffer.take (buffer.length - amount) else []

/-- `repo_check_repospanner`. -/
def repo_check_repospanner (env : client_env) : Int :=
  if !env.has_config then GIT_ENOTFOUND
  else if env.enabled.1 ≠ GIT_OK then env.enabled.1
  else if !env.enabled.2 then GIT_ENOTFOUND
  else GIT_OK

/-- The code that `repospanner_get_client` keeps in `error` for a failed
`git_config_get_string_buf`: `GIT_ENOTFOUND` becomes `GIT_ERROR`. -/
def config_error (code : Int) : Int := if code = GIT_ENOTFOUND then GIT_ERROR else code

/-- The data normalization at the end of `repospanner_get_client`: the byte at offset
`git_buf_len` of the memory of the buffer is compared with `/` (byte 47). -/
def normalize_baseurl (baseurl : List Nat) : List Nat :=
  if (git_buf_cstr baseurl).getD baseurl.length 0 = 47 then git_buf_shorten baseurl 1
  else baseurl

/-- `repospanner_get_client` on the registry `global_clients`. When no client is stored
under the `gitdir`, `git_sortedcache_upsert` adds a zeroed record at the end of the registry
and the call fills it in place. The `fail` path frees the base URL and calls
`git__free(client)` on that record, and it has no call that takes the record out of the
registry: the registry keeps pointing at freed memory, which the record left there shows
with `freed := true`. A later call that finds such a record hands out the pointer to it. -/
def repospanner_get_client (env : client_env) (global_clients : List repoSpanner_client) :
    client_result :=
  if repo_check_repospanner env ≠ GIT_OK then
    ⟨repo_check_repospanner env, none, global_clients, 0⟩
  else if env.wlock ≠ GIT_OK then ⟨GIT_ERROR, none, global_clients, 0⟩
  else
    match client_lookup global_clients env.gitdir with
    | some client => ⟨GIT_OK, some client, global_clients, 0⟩
    | none =>
      let fail (error : Int) (client : repoSpanner_client) (built : Nat) : client_result :=
        ⟨error, none, global_clients ++ [{ client with baseurl := [], freed := true }], built⟩
      let client0 : repoSpanner_client := ⟨none, false, [], env.gitdir, false⟩
      if !env.easy_init_ok then fail GIT_OK client0 0
      else
        let handle0 : curl_handle := ⟨none, none, none, none⟩
        let client1 := { client0 with basehandle := some handle0 }
        if !env.share_init_ok then fail GIT_OK client1 1
        else
          let client2 := { client1 with share := true }
          if env.user_agent.1 ≠ GIT_OK then fail env.user_agent.1 client2 1
          else
            let handle1 := { handle0 with useragent := some env.user_agent.2 }
            let client3 := { client2 with basehandle := some handle1 }
            if env.url.1 ≠ GIT_OK then fail (config_error env.url.1) client3 1
            else
              let client4 := { client3 with baseurl := env.url.2 }
              if env.cert.1 ≠ GIT_OK then fail (config_error env.cert.1) client4 1
              else
                let handle2 := { handle1 with sslcert := some env.cert.2 }
                let client5 := { client4 with basehandle := some handle2 }
                if env.key.1 ≠ GIT_OK then fail (config_error env.key.1) client5 1
                else
                  let handle3 := { handle2 with sslkey := some env.key.2 }
                  let client6 := { client5 with basehandle := some handle3 }
                  if env.cacert.1 ≠ GIT_OK then fail (config_error env.cacert.1) client6 1
                  else
                    let handle4 := { handle3 with cainfo := some env.cacert.2 }
                    let client7 : repoSpanner_client :=
                      { client6 with
                        basehandle := some handle4, baseurl := normalize_baseurl client6.baseurl }
                    ⟨GIT_OK, some client7, global_clients ++ [client7], 1⟩

/-- A sequence of `repospanner_get_client` calls, one after the other: the registry after
the last of them. -/
def run_calls : List client_env → List repoSpanner_client → List repoSpanner_client
  | [], global_clients => global_clients
  | env :: envs, global_clients =>
    run_calls envs (repospanner_get_client env global_clients).registry

/-- The registry holds at most one client for a `gitdir`. -/
def gitdirs_nodup (global_clients : List repoSpanner_client) : Prop :=
  (global_clients.map repoSpanner_client.gitdir).Nodup

/-- No record of the registry is freed memory: no construction of a client has failed. -/
def no_failed (global_clients : List repoSpanner_client) : Prop :=
  ∀ x ∈ global_clients, x.freed = false

instance (global_clients : List repoSpanner_client) : Decidable (no_failed global_clients) :=
  inferInstanceAs (Decidable (∀ x ∈ global_clients, x.freed = false))

/-- A client whose construction went through: the record is live, the share handle is set,
and the base handle has its user agent, certificate, key and CA bundle. -/
def built_client (c : repoSpanner_client) : Bool :=
  !c.freed && c.share &&
    match c.basehandle with
    | some h => h.useragent.isSome && h.sslcert.isSome && h.sslkey.isSome && h.cainfo.isSome
    | none => false

/-- Every record of the registry is freed memory or a client whose construction went
through. -/
def freed_or_built (global_clients : List repoSpanner_client) : Prop :=
  ∀ x ∈ global_clients, x.freed = true ∨ built_client x = true

/-! ## Sample inputs -/

/-- A load environment in which every collaborator succeeds and the body is empty. -/
def idle_env : load_env :=
  { sortedcache_new := 0, prepare_request := 0, calloc_ok := true, buf_init := 0, body := [],
    curl_result := CURLE_OK, response_code := 200 }

/-- Three `"real"` records, two of them for the name `a`. -/
def sample_records : List ref_record :=
  [⟨cbytes "real", cbytes "a", List.replicate 40 49⟩,
   ⟨cbytes "real", cbytes "b", List.replicate 40 50⟩,
   ⟨cbytes "real", cbytes "a", List.replicate 40 51⟩]

/-- The stream of `sample_records` cut inside a type, inside a value and after a newline. -/
def sample_chunks : List (List Nat) :=
  [cbytes "re",
   cbytes "al\x00a\x00" ++ List.replicate 40 49 ++ cbytes "\nreal\x00b\x00" ++ List.replicate 7 50,
   List.replicate 33 50 ++ cbytes "\n",
   [],
   cbytes "real\x00a\x00" ++ List.replicate 40 51 ++ cbytes "\n"]

/-- A `"real"` record for `a` followed by a `"symb"` record `b` that names `a`. -/
def symb_stream : List Nat :=
  cbytes "real\x00a\x00" ++ List.replicate 40 97 ++ cbytes "\nsymb\x00b\x00a\n"

/-- A `"real"` record whose value has 41 hexadecimal characters. -/
def long_value_stream : List Nat :=
  cbytes "real\x00a\x00" ++ List.replicate 41 97 ++ cbytes "\n"

/-- A record of type `"xxxx"` whose value field is 40 hexadecimal characters and a NUL. -/
def bad_type_stream : List Nat :=
  cbytes "xxxx\x00n\x00" ++ List.replicate 40 97 ++ cbytes "\x00\n"

/-- Three `"real"` records in the order `feat/a`, `main`, `feat/b`. -/
def branch_stream : List Nat :=
  cbytes "real\x00feat/a\x00" ++ List.replicate 40 49 ++ cbytes "\nreal\x00main\x00" ++
    List.replicate 40 50 ++ cbytes "\nreal\x00feat/b\x00" ++ List.replicate 40 51 ++ cbytes "\n"

/-- A load environment whose body has a line without separators. -/
def broken_env : load_env :=
  { sortedcache_new := 0, prepare_request := 0, calloc_ok := true, buf_init := 0,
    body := [cbytes "real\x00a\x00" ++ List.replicate 40 49 ++ cbytes "\n", cbytes "junk\n"],
    curl_result := CURLE_OK, response_code := 200 }

/-- A load environment in which `repospanner_prepare_request` fails. -/
def request_fails_env : load_env :=
  { sortedcache_new := 0, prepare_request := GIT_ERROR, calloc_ok := true, buf_init := 0,
    body := [], curl_result := CURLE_OK, response_code := 200 }

/-- A `"real"` record, a `"symb"` record that names it and a second `"real"` record. -/
def mixed_records : List ref_record :=
  [⟨cbytes "real", cbytes "a", List.replicate 40 49⟩,
   ⟨cbytes "symb", cbytes "b", cbytes "a"⟩,
   ⟨cbytes "real", cbytes "c", List.replicate 40 70⟩]

/-- The stream of `mixed_records` cut before the value of the `"symb"` record and inside the
last value. -/
def mixed_chunks : List (List Nat) :=
  [cbytes "real\x00a\x00" ++ List.replicate 40 49 ++ cbytes "\nsymb\x00b\x00",
   cbytes "a\nreal\x00c\x00" ++ List.replicate 5 70,
   List.replicate 35 70 ++ cbytes "\n"]

/-- Two complete records and the start of a third one. -/
def truncated_chunks : List (List Nat) :=
  [cbytes "real\x00a\x00" ++ List.replicate 40 49 ++ cbytes "\nreal\x00b",
   cbytes "\x00" ++ List.replicate 40 50 ++ cbytes "\nreal\x00c"]

/-- A repository with the remote store enabled and the four options set; the URL ends with
a `/`. -/
def slash_env : client_env :=
  { gitdir := cbytes "/srv/repo/.git/", has_config := true, enabled := (0, true), wlock := 0,
    easy_init_ok := true, share_init_ok := true,
    user_agent := (0, cbytes "git/2.0 (libgit2 0.27.0) repospanner/1"),
    url := (0, cbytes "https://host/repo/"), cert := (0, cbytes "/etc/rs/client.crt"),
    key := (0, cbytes "/etc/rs/client.key"), cacert := (0, cbytes "/etc/rs/ca.crt") }

/-- The repository of `slash_env` without the option `repospanner.url`. -/
def no_url_env : client_env :=
  { slash_env with url := (GIT_ENOTFOUND, []) }

/-- The repository of `slash_env` after `repospanner.enabled` was set to false. -/
def disabled_env : client_env :=
  { slash_env with enabled := (0, false) }

/-- Another repository, with a URL that has no trailing `/`. -/
def other_env : client_env :=
  { slash_env with gitdir := cbytes "/srv/other/.git/", url := (0, cbytes "https://host/other") }

/-- The client that `repospanner_get_client` builds for `slash_env`. -/
def slash_client : repoSpanner_client :=
  { basehandle := some
      { useragent := some (cbytes "git/2.0 (libgit2 0.27.0) repospanner/1"),
        sslcert := some (cbytes "/etc/rs/client.crt"),
        sslkey := some (cbytes "/etc/rs/client.key"),
        cainfo := some (cbytes "/etc/rs/ca.crt") },
    share := true, baseurl := cbytes "https://host/repo/", gitdir := cbytes "/srv/repo/.git/",
    freed := false }

/-! ## Lists of bytes -/

theorem find_newline_none (l : List Nat) (i : Nat) (h : 10 ∉ l) : find_newline l i = none := by
  induction l generalizing i with
  | nil => rfl
  | cons b rest ih =>
    simp only [List.mem_cons, not_or] at h
    have hb : ¬ b = 10 := fun e => h.1 e.symm
    simp [find_newline, hb, ih (i + 1) h.2]

theorem find_newline_append (a rest : List Nat) (i : Nat) (h : 10 ∉ a) :
    find_newline (a ++ 10 :: rest) i = some (i + a.length) := by
  induction a generalizing i with
  | nil => simp [find_newline]
  | cons b a ih =>
    simp only [List.mem_cons, not_or] at h
    have hb : ¬ b = 10 := fun e => h.1 e.symm
    simp [find_newline, hb, ih (i + 1) h.2]
    omega

theorem find_newline_some (l : List Nat) (i k : Nat) (h : find_newline l i = some k) :
    ∃ a rest, l = a ++ 10 :: rest ∧ 10 ∉ a ∧ k = i + a.length := by
  induction l generalizing i with
  | nil => simp [find_newline] at h
  | cons b l ih =>
    by_cases hb : b = 10
    · subst hb
      simp [find_newline] at h
      exact ⟨[], l, by simp, by simp, by simp [h]⟩
    · simp only [find_newline, hb, if_false] at h
      obtain ⟨a, rest, h1, h2, h3⟩ := ih (i + 1) h
      refine ⟨b :: a, rest, by simp [h1], ?_, by simp [h3]; omega⟩
      simp only [List.mem_cons, not_or]
      exact ⟨fun e => hb e.symm, h2⟩

theorem find_newline_mem (l : List Nat) (i : Nat) (h : find_newline l i = none) : 10 ∉ l := by
  induction l generalizing i with
  | nil => simp
  | cons b l ih =>
    by_cases hb : b = 10
    · simp [find_newline, hb] at h
    · simp only [find_newline, hb, if_false] at h
      simp only [List.mem_cons, not_or]
      exact ⟨fun e => hb e.symm, ih (i + 1) h⟩

/-- A list has one split only at the first occurrence of a byte. -/
theorem split_first_unique (x : Nat) (a b c d : List Nat) (ha : x ∉ a) (hc : x ∉ c)
    (h : a ++ x :: b = c ++ x :: d) : a = c ∧ b = d := by
  induction a generalizing c with
  | nil =>
    cases c with
    | nil => simpa using h
    | cons y c =>
      simp only [List.nil_append, List.cons_append, List.cons.injEq] at h
      simp [h.1] at hc
  | cons y a ih =>
    cases c with
    | nil =>
      simp only [List.nil_append, List.cons_append, List.cons.injEq] at h
      simp [h.1] at ha
    | cons z c =>
      simp only [List.cons_append, List.cons.injEq] at h
      simp only [List.mem_cons, not_or] at ha hc
      obtain ⟨h1, h2⟩ := ih c ha.2 hc.2 h.2
      exact ⟨by rw [h.1, h1], h2⟩

theorem takeWhile_append_stop (p : Nat → Bool) (a rest : List Nat) (x : Nat)
    (ha : ∀ b ∈ a, p b = true) (hx : p x = false) : (a ++ x :: rest).takeWhile p = a := by
  induction a with
  | nil => simp [List.takeWhile, hx]
  | cons b a ih =>
    have hb : p b = true := ha b (by simp)
    simp [List.takeWhile, hb]
    exact ih (fun c hc => ha c (by simp [hc]))

theorem cstr_at (pre s post : List Nat) (hs : 0 ∉ s) :
    cstr (pre ++ (s ++ 0 :: post)) pre.length = s := by
  unfold cstr
  rw [List.drop_left]
  apply takeWhile_append_stop
  · intro b hb
    have : b ≠ 0 := fun e => hs (e ▸ hb)
    simpa using this
  · simp

theorem cstr_zero (s post : List Nat) (hs : 0 ∉ s) : cstr (s ++ 0 :: post) 0 = s := by
  simpa using cstr_at [] s post hs

/-- A C string that starts before a newline of its memory, with no NUL in between, has the
newline in it. -/
theorem cstr_newline (pre s post : List Nat) (hs : 0 ∉ s) :
    10 ∈ cstr (pre ++ (s ++ 10 :: post)) pre.length := by
  unfold cstr
  rw [List.drop_left]
  induction s with
  | nil => simp [List.takeWhile]
  | cons b s ih =>
    simp only [List.mem_cons, not_or] at hs
    have hb : ¬ b = 0 := fun e => hs.1 e.symm
    simp only [List.cons_append, List.takeWhile, ne_eq, hb, not_false_eq_true, decide_True,
      List.mem_cons]
    exact Or.inr (ih hs.2)

/-! ## The field scan -/

theorem parse_ref_scan_cons_ne (b : Nat) (rest : List Nat) (pos : Nat) (name : Option Nat)
    (hb : ¬ b = 0) : parse_ref_scan (b :: rest) pos name = parse_ref_scan rest (pos + 1) name := by
  simp [parse_ref_scan, hb]

theorem parse_ref_scan_skip (a rest : List Nat) (pos : Nat) (name : Option Nat) (ha : 0 ∉ a) :
    parse_ref_scan (a ++ 0 :: rest) pos name =
      match name with
      | none => parse_ref_scan rest (pos + a.length + 1) (some (pos + a.length + 1))
      | some n => (some n, some (pos + a.length + 1)) := by
  induction a generalizing pos with
  | nil => cases name <;> simp [parse_ref_scan]
  | cons b a ih =>
    simp only [List.mem_cons, not_or] at ha
    have hb : ¬ b = 0 := fun e => ha.1 e.symm
    rw [List.cons_append, parse_ref_scan_cons_ne _ _ _ _ hb, ih (pos + 1) ha.2]
    simp only [List.length_cons]
    have e : pos + 1 + a.length + 1 = pos + (a.length + 1) + 1 := by omega
    cases name <;> simp [e]

theorem parse_ref_scan_fields (type name value : List Nat) (ht : 0 ∉ type) (hn : 0 ∉ name) :
    parse_ref_scan (type ++ 0 :: (name ++ 0 :: value)) 0 none =
      (some (type.length + 1), some (type.length + 1 + name.length + 1)) := by
  rw [parse_ref_scan_skip _ _ _ _ ht]
  simp only [Nat.zero_add]
  rw [parse_ref_scan_skip _ _ _ _ hn]

theorem parse_ref_scan_few (l : List Nat) (pos : Nat) (name : Option Nat)
    (h : l.count 0 < (if name.isSome then 1 else 2)) : (parse_ref_scan l pos name).2 = none := by
  induction l generalizing pos name with
  | nil => rfl
  | cons b l ih =>
    by_cases hb : b = 0
    · subst hb
      cases name with
      | none =>
        simp only [parse_ref_scan, ne_eq, not_true_eq_false, if_false]
        apply ih
        simp only [List.count_cons_self, Option.isSome_none] at h
        simp only [Option.isSome_some, if_true]
        simp at h
        omega
      | some n =>
        simp only [List.count_cons_self, Option.isSome_some, if_true] at h
        omega
    · simp only [parse_ref_scan, ne_eq, hb, not_false_eq_true, if_true]
      apply ih
      rwa [List.count_cons_of_ne (fun e => hb e.symm)] at h

theorem parse_ref_few (target : git_sortedcache) (m : List Nat) (start stop : Nat)
    (h : ((m.drop start).take (stop - start)).count 0 < 2) :
    parse_ref target m start stop = (GIT_ERROR, target) := by
  have h2 := parse_ref_scan_few ((m.drop start).take (stop - start)) start none (by simpa using h)
  unfold parse_ref
  generalize parse_ref_scan ((m.drop start).take (stop - start)) start none = r at h2
  obtain ⟨a, b⟩ := r
  simp only at h2
  subst h2
  cases a <;> rfl

/-! ## Object ids from hexadecimal characters -/

theorem fromhex_of_is_hex (c : Nat) (h : is_hex c) :
    git__fromhex c = (hex_value c : Int) ∧ hex_value c < 16 := by
  unfold is_hex at h
  unfold git__fromhex hex_value
  split_ifs <;> omega

theorem nibbles_byte : ∀ a < 16, ∀ b < 16, (0 ||| a <<< 4) ||| (b <<< 0) = 16 * a + b := by
  decide

theorem getD_of_drop (m : List Nat) (n a : Nat) (t : List Nat) (h : m.drop n = a :: t) :
    m.getD n 0 = a := by
  induction m generalizing n with
  | nil => simp at h
  | cons x m ih =>
    cases n with
    | zero =>
      simp only [List.drop_zero, List.cons.injEq] at h
      simp [h.1]
    | succ n =>
      simp only [List.drop_succ_cons] at h
      simpa using ih n h

theorem drop_succ_of_drop (m : List Nat) (n a : Nat) (t : List Nat) (h : m.drop n = a :: t) :
    m.drop (n + 1) = t := by
  induction m generalizing n with
  | nil => simp at h
  | cons x m ih =>
    cases n with
    | zero =>
      simp only [List.drop_zero, List.cons.injEq] at h
      simp [h.2]
    | succ n =>
      simp only [List.drop_succ_cons] at h
      simpa using ih n h

theorem getD_at_length (a : List Nat) (x : Nat) (t : List Nat) :
    (a ++ x :: t).getD a.length 0 = x := by
  induction a with
  | nil => rfl
  | cons y a ih => simpa using ih

theorem set_at_length (a : List Nat) (x y : Nat) (t : List Nat) :
    (a ++ x :: t).set a.length y = a ++ y :: t := by
  induction a with
  | nil => rfl
  | cons z a ih => simp [ih]

theorem fromstrn_loop_step (m : List Nat) (str n p c : Nat) (id : List Nat)
    (hc : m.getD (str + p) 0 = c) (hx : is_hex c) :
    git_oid_fromstrn_loop m str (n + 1) p id =
      git_oid_fromstrn_loop m str n (p + 1)
        (id.set (p / 2) (id.getD (p / 2) 0 ||| (hex_value c <<< (if p % 2 ≠ 0 then 0 else 4)))) := by
  have h := (fromhex_of_is_hex c hx).1
  have h0 : ¬ (hex_value c : Int) < 0 := by omega
  simp only [git_oid_fromstrn_loop, hc, h, h0, if_false, Int.toNat_ofNat]

theorem fromstrn_loop_pairs (m : List Nat) (str : Nat) :
    ∀ (k : Nat) (v post done zs : List Nat) (p : Nat), v.length = 2 * k →
      (∀ c ∈ v, is_hex c) → m.drop (str + p) = v ++ post → p = 2 * done.length →
      git_oid_fromstrn_loop m str (2 * k) p (done ++ (List.replicate k 0 ++ zs)) =
        (0, done ++ (hex_oid v ++ zs)) := by
  intro k
  induction k with
  | zero =>
    intro v post done zs p hv _ _ _
    have : v = [] := List.length_eq_zero.mp (by simpa using hv)
    subst this
    simp [git_oid_fromstrn_loop, hex_oid]
  | succ k ih =>
    intro v post done zs p hv hh hd hp
    match v, hv, hh, hd with
    | [], hv, _, _ => simp only [List.length_nil] at hv; omega
    | [_], hv, _, _ => simp only [List.length_cons, List.length_nil] at hv; omega
    | h :: l :: v1, hv, hh, hd =>
      have hh1 : is_hex h := hh h (by simp)
      have hl1 : is_hex l := hh l (by simp)
      have e1 : m.getD (str + p) 0 = h := getD_of_drop m _ h _ hd
      have d1 : m.drop (str + p + 1) = l :: (v1 ++ post) := drop_succ_of_drop m _ h _ hd
      have e2 : m.getD (str + (p + 1)) 0 = l := getD_of_drop m _ l _ d1
      have d2 : m.drop (str + (p + 1 + 1)) = v1 ++ post := drop_succ_of_drop m _ l _ d1
      have q1 : p / 2 = done.length := by omega
      have q2 : (p + 1) / 2 = done.length := by omega
      have r1 : ¬ p % 2 ≠ 0 := by omega
      have r2 : (p + 1) % 2 ≠ 0 := by omega
      have two : 2 * (k + 1) = 2 * k + 1 + 1 := by ring
      rw [two, fromstrn_loop_step m str _ p h _ e1 hh1,
        fromstrn_loop_step m str _ (p + 1) l _ e2 hl1]
      have s1 : (if p % 2 ≠ 0 then 0 else 4) = 4 := by simp [r1]
      have s2 : (if (p + 1) % 2 ≠ 0 then 0 else 4) = 0 := by simp [r2]
      simp only [q1, q2, s1, s2, List.replicate_succ, List.cons_append,
        getD_at_length, set_at_length]
      rw [nibbles_byte _ (fromhex_of_is_hex h hh1).2 _ (fromhex_of_is_hex l hl1).2]
      have := ih v1 post (done ++ [16 * hex_value h + hex_value l]) zs (p + 1 + 1)
        (by simp at hv; omega) (fun c hc => hh c (by simp [hc])) d2 (by simp; omega)
      simp only [List.append_assoc, List.singleton_append] at this
      rw [this]
      simp [hex_oid]

theorem git_oid_fromstrn_hex (old m : List Nat) (str : Nat) (v post : List Nat)
    (hv : v.length = 40) (hh : ∀ c ∈ v, is_hex c) (hd : m.drop str = v ++ post) :
    git_oid_fromstrn old m str 40 = (0, hex_oid v) := by
  have := fromstrn_loop_pairs m str 20 v post [] [] 0 (by omega) hh (by simpa using hd) rfl
  simpa [git_oid_fromstrn, zero_oid] using this

/-! ## One record line -/

theorem take_append_cons (a : List Nat) (x : Nat) (t : List Nat) (n : Nat) :
    (a ++ x :: t).take (a.length + 1 + n) = a ++ x :: t.take n := by
  induction a with
  | nil => simp [show 0 + 1 + n = n + 1 by omega]
  | cons y a ih =>
    simp [show a.length + 1 + 1 + n = (a.length + 1 + n) + 1 by omega, ih]

theorem drop_append_cons (a : List Nat) (x : Nat) (t : List Nat) (n : Nat) :
    (a ++ x :: t).drop (a.length + 1 + n) = t.drop n := by
  induction a with
  | nil => simp [show 0 + 1 + n = n + 1 by omega]
  | cons y a ih =>
    simp [show a.length + 1 + 1 + n = (a.length + 1 + n) + 1 by omega, ih]

theorem cstr_second (type name post : List Nat) (hn : 0 ∉ name) :
    cstr (type ++ 0 :: (name ++ 0 :: post)) (type.length + 1) = name := by
  have h := cstr_at (type ++ [0]) name post hn
  simpa using h

theorem drop_third (type name tail : List Nat) :
    (type ++ 0 :: (name ++ 0 :: tail)).drop (type.length + 1 + name.length + 1) = tail := by
  have h := drop_append_cons type 0 (name ++ 0 :: tail) (name.length + 1)
  rw [show type.length + 1 + name.length + 1 = type.length + 1 + (name.length + 1) by omega, h]
  simp

theorem cstr_third_newline (type name value post : List Nat) (hv : 0 ∉ value) :
    10 ∈ cstr (type ++ 0 :: (name ++ 0 :: (value ++ 10 :: post)))
      (type.length + 1 + name.length + 1) := by
  have h := cstr_newline [] value post hv
  unfold cstr at h ⊢
  rw [drop_third]
  simpa using h

/-- The fields that `parse_ref` sees in a line `type NUL name NUL ...` at the start of the
memory, when the scan reaches past the second NUL. -/
theorem parse_ref_fields (target : git_sortedcache) (type name tail : List Nat) (j : Nat)
    (ht : 0 ∉ type) (hn : 0 ∉ name) :
    parse_ref target (type ++ 0 :: (name ++ 0 :: tail)) 0
        (type.length + 1 + (name.length + 1 + j)) =
      (let m := type ++ 0 :: (name ++ 0 :: tail)
       let val := type.length + 1 + name.length + 1
       if strcmp type (cbytes "real") = 0 ∧ strcmp type (cbytes "symb") = 0 then
         (GIT_ERROR, target)
       else if strcmp type (cbytes "symb") = 0 then
         parse_symb_ref target name (cstr m val)
       else if strcmp type (cbytes "real") ≠ 0 ∧ strlen m val ≠ 40 then
         (GIT_ERROR, target)
       else
         let target1 := git_sortedcache_upsert target name
         let old := ((git_sortedcache_lookup target1 name).map packref.oid).getD zero_oid
         let r := git_oid_fromstrn old m val 40
         let target2 := store_oid target1 name r.2
         if r.1 ≠ GIT_OK then (GIT_ERROR, target2) else (GIT_OK, target2)) := by
  unfold parse_ref
  simp only [List.drop_zero, Nat.sub_zero]
  rw [take_append_cons, take_append_cons, parse_ref_scan_fields _ _ _ ht hn]
  simp only [cstr_zero type _ ht, cstr_second type name tail hn]

theorem lookup_newline (sc : git_sortedcache) (key : List Nat) (h : no_newline_names sc)
    (hk : 10 ∈ key) : git_sortedcache_lookup sc key = none := by
  unfold git_sortedcache_lookup
  rw [List.find?_eq_none]
  intro e he
  have := h e he
  simp only [decide_eq_true_eq]
  intro e1
  exact this (e1 ▸ hk)

theorem cbytes_real : cbytes "real" = [114, 101, 97, 108] := by decide

theorem cbytes_symb : cbytes "symb" = [115, 121, 109, 98] := by decide

theorem parse_ref_real (target : git_sortedcache) (name value post : List Nat) (j : Nat)
    (hn : 0 ∉ name) (hv : value.length = 40) (hh : ∀ c ∈ value, is_hex c) :
    parse_ref target (cbytes "real" ++ 0 :: (name ++ 0 :: (value ++ post))) 0
        ((cbytes "real").length + 1 + (name.length + 1 + j)) =
      (GIT_OK, store_oid (git_sortedcache_upsert target name) name (hex_oid value)) := by
  rw [parse_ref_fields target _ name _ j (by decide) hn]
  have h1 : strcmp (cbytes "real") (cbytes "real") = 0 := by decide
  have h2 : ¬ strcmp (cbytes "real") (cbytes "symb") = 0 := by decide
  have h3 := git_oid_fromstrn_hex
    (((git_sortedcache_lookup (git_sortedcache_upsert target name) name).map packref.oid).getD
      zero_oid)
    (cbytes "real" ++ 0 :: (name ++ 0 :: (value ++ post)))
    ((cbytes "real").length + 1 + name.length + 1) value post hv hh (drop_third _ _ _)
  simp only [h1, h2, and_false, if_false, ne_eq, not_true_eq_false, false_and, h3]

theorem parse_ref_symb (target : git_sortedcache) (name value post : List Nat) (j : Nat)
    (hn : 0 ∉ name) (hv : 0 ∉ value) (ht : no_newline_names target) :
    parse_ref target (cbytes "symb" ++ 0 :: (name ++ 0 :: (value ++ 10 :: post))) 0
        ((cbytes "symb").length + 1 + (name.length + 1 + j)) = (GIT_OK, target) := by
  rw [parse_ref_fields target _ name _ j (by decide) hn]
  have h1 : strcmp (cbytes "symb") (cbytes "symb") = 0 := by decide
  have h2 : ¬ strcmp (cbytes "symb") (cbytes "real") = 0 := by decide
  simp only [h1, h2, false_and, if_false, if_true]
  unfold parse_symb_ref
  rw [lookup_newline target _ ht (cstr_third_newline _ _ _ _ hv)]

/-! ## Records of the wire format -/

theorem encode_record_body (r : ref_record) : encode_record r = record_body r ++ [10] := by
  simp [encode_record, record_body]

theorem is_hex_ne_newline (c : Nat) (h : is_hex c) : c ≠ 10 := by
  unfold is_hex at h
  omega

theorem is_hex_ne_nul (c : Nat) (h : is_hex c) : c ≠ 0 := by
  unfold is_hex at h
  omega

theorem valid_type_nul (r : ref_record) (h : valid_record r) : 0 ∉ r.type := by
  rcases h with h | h <;> rw [h.1] <;> decide

theorem valid_name_nul (r : ref_record) (h : valid_record r) : 0 ∉ r.name := by
  rcases h with h | h
  · exact h.2.1.1
  · exact h.2.1.1

theorem valid_name_newline (r : ref_record) (h : valid_record r) : 10 ∉ r.name := by
  rcases h with h | h
  · exact h.2.1.2
  · exact h.2.1.2

theorem valid_body_newline (r : ref_record) (h : valid_record r) : 10 ∉ record_body r := by
  have hn := valid_name_newline r h
  have ht : 10 ∉ r.type := by rcases h with h | h <;> rw [h.1] <;> decide
  have hv : 10 ∉ r.value := by
    rcases h with h | h
    · intro hm
      exact is_hex_ne_newline 10 (h.2.2.2 10 hm) rfl
    · exact h.2.2.2
  simp [record_body, ht, hn, hv]

theorem encode_stream_newline (rs : List ref_record) (h : 10 ∉ encode_stream rs) : rs = [] := by
  cases rs with
  | nil => rfl
  | cons r rs => simp [encode_stream, encode_record] at h

theorem no_newline_upsert (sc : git_sortedcache) (key : List Nat) (h : no_newline_names sc)
    (hk : 10 ∉ key) : no_newline_names (git_sortedcache_upsert sc key) := by
  unfold git_sortedcache_upsert
  cases git_sortedcache_lookup sc key with
  | some e => exact h
  | none =>
    intro e he
    simp only [List.mem_append, List.mem_singleton] at he
    rcases he with he | he
    · exact h e he
    · rw [he]
      exact hk

theorem no_newline_store (sc : git_sortedcache) (key oid : List Nat) (h : no_newline_names sc) :
    no_newline_names (store_oid sc key oid) := by
  intro e he
  simp only [store_oid, List.mem_map] at he
  obtain ⟨a, ha, rfl⟩ := he
  have := h a ha
  split <;> simpa using this

theorem no_newline_apply (sc : git_sortedcache) (r : ref_record) (h : no_newline_names sc)
    (hr : valid_record r) : no_newline_names (apply_record sc r) := by
  unfold apply_record
  split
  · exact no_newline_store _ _ _ (no_newline_upsert _ _ h (valid_name_newline r hr))
  · exact h

theorem no_newline_apply_all (rs : List ref_record) (sc : git_sortedcache)
    (h : no_newline_names sc) (hr : ∀ r ∈ rs, valid_record r) :
    no_newline_names (apply_records sc rs) := by
  induction rs generalizing sc with
  | nil => exact h
  | cons r rs ih =>
    exact ih (apply_record sc r) (no_newline_apply sc r h (hr r (by simp)))
      (fun x hx => hr x (by simp [hx]))

theorem parse_ref_valid (target : git_sortedcache) (r : ref_record) (post : List Nat)
    (hr : valid_record r) (ht : no_newline_names target) :
    parse_ref target (git_buf_cstr (record_body r ++ 10 :: post)) 0 (record_body r).length =
      (GIT_OK, apply_record target r) := by
  have hm : git_buf_cstr (record_body r ++ 10 :: post) =
      r.type ++ 0 :: (r.name ++ 0 :: (r.value ++ 10 :: (post ++ [0]))) := by
    simp [git_buf_cstr, record_body]
  have hl : (record_body r).length = r.type.length + 1 + (r.name.length + 1 + r.value.length) := by
    simp [record_body]
    omega
  rw [hm, hl]
  rcases hr with h | h
  · have e := parse_ref_real target r.name r.value (10 :: (post ++ [0])) r.value.length
      h.2.1.1 h.2.2.1 h.2.2.2
    rw [← h.1] at e
    rw [e]
    simp [apply_record, h.1]
  · have e := parse_ref_symb target r.name r.value (post ++ [0]) r.value.length
      h.2.1.1 h.2.2.1 ht
    rw [← h.1] at e
    rw [e]
    have : ¬ r.type = cbytes "real" := by rw [h.1]; decide
    simp [apply_record, this]

/-! ## The parse loop -/

theorem loop_none (f : Nat) (data : refretrieve) (final : Bool)
    (h : find_newline data.buffer 0 = none) :
    ref_write_parse_loop (f + 1) data final =
      some (if final = true ∧ data.buffer ≠ [] then GIT_ERROR else GIT_OK, data) := by
  unfold ref_write_parse_loop
  simp only [h]
  cases final <;> cases hb : data.buffer <;> simp

theorem loop_some_ok (f : Nat) (data : refretrieve) (final : Bool) (k : Nat)
    (t : git_sortedcache) (h : find_newline data.buffer 0 = some k)
    (hp : parse_ref data.target (git_buf_cstr data.buffer) 0 k = (GIT_OK, t)) :
    ref_write_parse_loop (f + 1) data final =
      ref_write_parse_loop f ⟨git_buf_consume data.buffer (k + 1), t⟩ final := by
  rw [ref_write_parse_loop]
  simp [h, hp]

theorem loop_some_err (f : Nat) (data : refretrieve) (final : Bool) (k : Nat) (e : Int)
    (t : git_sortedcache) (h : find_newline data.buffer 0 = some k)
    (hp : parse_ref data.target (git_buf_cstr data.buffer) 0 k = (e, t)) (he : e ≠ GIT_OK) :
    ref_write_parse_loop (f + 1) data final = some (e, { data with target := t }) := by
  rw [ref_write_parse_loop]
  simp [h, hp, he]

theorem consume_line (a rest : List Nat) :
    git_buf_consume (a ++ 10 :: rest) (a.length + 1) = rest := by
  have h := drop_append_cons a 10 rest 0
  simp only [Nat.add_zero, List.drop_zero] at h
  simp [git_buf_consume, h]

theorem parse_loop_valid (final : Bool) (todo : List ref_record) :
    (∀ r ∈ todo, valid_record r) →
    ∀ (b tail : List Nat) (target : git_sortedcache) (fuel : Nat),
      b ++ tail = encode_stream todo → no_newline_names target → b.length < fuel →
      ∃ parsed rest res, todo = parsed ++ rest ∧ 10 ∉ res ∧ res ++ tail = encode_stream rest ∧
        ref_write_parse_loop fuel ⟨b, target⟩ final =
          some (if final = true ∧ res ≠ [] then GIT_ERROR else GIT_OK,
            ⟨res, apply_records target parsed⟩) := by
  induction todo with
  | nil =>
    intro _ b tail target fuel hb _ hf
    obtain ⟨f, rfl⟩ : ∃ f, fuel = f + 1 := ⟨fuel - 1, by omega⟩
    have hb0 : b = [] := by
      simp only [encode_stream, List.append_eq_nil] at hb
      exact hb.1
    subst hb0
    refine ⟨[], [], [], rfl, by simp, by simpa using hb, ?_⟩
    rw [loop_none f ⟨[], target⟩ final rfl]
    rfl
  | cons r rs ih =>
    intro hv b tail target fuel hb ht hf
    obtain ⟨f, rfl⟩ : ∃ f, fuel = f + 1 := ⟨fuel - 1, by omega⟩
    cases hn : find_newline b 0 with
    | none =>
      refine ⟨[], r :: rs, b, rfl, find_newline_mem b 0 hn, hb, ?_⟩
      rw [loop_none f _ final hn]
      rfl
    | some k =>
      obtain ⟨a, b1, hab, ha, hk⟩ := find_newline_some b 0 k hn
      subst hab
      have hr : valid_record r := hv r (by simp)
      have hsplit : a ++ 10 :: (b1 ++ tail) = record_body r ++ 10 :: encode_stream rs := by
        simpa [encode_stream, encode_record_body] using hb
      obtain ⟨e1, e2⟩ := split_first_unique 10 _ _ _ _ ha (valid_body_newline r hr) hsplit
      subst e1
      have hk1 : k = (record_body r).length := by omega
      subst hk1
      have hp := parse_ref_valid target r b1 hr ht
      obtain ⟨parsed, rest, res, h1, h2, h3, h4⟩ :=
        ih (fun x hx => hv x (by simp [hx])) b1 tail (apply_record target r) f e2
          (no_newline_apply target r ht hr) (by simp at hf; omega)
      refine ⟨r :: parsed, rest, res, by simp [h1], h2, h3, ?_⟩
      rw [loop_some_ok f _ final _ _ hn hp, consume_line, h4]
      rfl

/-! ## Chunks -/

theorem callback_ok (c : List Nat) (data d1 : refretrieve)
    (h : ref_write_parse ⟨data.buffer ++ c, data.target⟩ false = some (GIT_OK, d1)) :
    ref_write_callback c data = some ((c.length : Int), d1) := by
  unfold ref_write_callback git_buf_put
  simp only [h]
  simp

theorem callback_err (c : List Nat) (data d1 : refretrieve) (e : Int) (he : e ≠ GIT_OK)
    (h : ref_write_parse ⟨data.buffer ++ c, data.target⟩ false = some (e, d1)) :
    ref_write_callback c data = some (GIT_ERROR, d1) := by
  unfold ref_write_callback git_buf_put
  simp only [h]
  simp [he]

theorem feed_cons_ok (c : List Nat) (cs : List (List Nat)) (data d1 : refretrieve)
    (h : ref_write_parse ⟨data.buffer ++ c, data.target⟩ false = some (GIT_OK, d1)) :
    feed_chunks (c :: cs) data = feed_chunks cs d1 := by
  rw [feed_chunks, callback_ok c data d1 h]
  simp

theorem feed_cons_err (c : List Nat) (cs : List (List Nat)) (data d1 : refretrieve) (e : Int)
    (he : e ≠ GIT_OK)
    (h : ref_write_parse ⟨data.buffer ++ c, data.target⟩ false = some (e, d1)) :
    feed_chunks (c :: cs) data = some (false, d1) := by
  rw [feed_chunks, callback_err c data d1 e he h]
  have : ¬ (GIT_ERROR = (c.length : Int)) := by
    simp only [GIT_ERROR]
    omega
  simp [this]

theorem feed_valid (chunks : List (List Nat)) :
    ∀ (todo : List ref_record), (∀ r ∈ todo, valid_record r) →
    ∀ (buf : List Nat) (target : git_sortedcache),
      buf ++ chunks.flatten = encode_stream todo → no_newline_names target →
      ∃ parsed rest, todo = parsed ++ rest ∧
        feed_chunks chunks ⟨buf, target⟩ =
          some (true, ⟨encode_stream rest, apply_records target parsed⟩) := by
  induction chunks with
  | nil =>
    intro todo _ buf target hb _
    refine ⟨[], todo, rfl, ?_⟩
    simp only [List.flatten_nil, List.append_nil] at hb
    rw [feed_chunks, hb]
    rfl
  | cons c cs ih =>
    intro todo hv buf target hb ht
    have hb1 : (buf ++ c) ++ cs.flatten = encode_stream todo := by
      simpa using hb
    obtain ⟨parsed, rest, res, h1, _, h3, h4⟩ :=
      parse_loop_valid false todo hv (buf ++ c) cs.flatten target ((buf ++ c).length + 1) hb1 ht
        (by omega)
    have hvr : ∀ r ∈ rest, valid_record r := fun r hr => hv r (by simp [h1, hr])
    have hvp : ∀ r ∈ parsed, valid_record r := fun r hr => hv r (by simp [h1, hr])
    obtain ⟨parsed2, rest2, g1, g2⟩ :=
      ih rest hvr res (apply_records target parsed) h3 (no_newline_apply_all parsed target ht hvp)
    refine ⟨parsed ++ parsed2, rest2, by simp [h1, g1], ?_⟩
    have h5 : ref_write_parse ⟨buf ++ c, target⟩ false =
        some (GIT_OK, ⟨res, apply_records target parsed⟩) := by
      unfold ref_write_parse
      rw [h4]
      simp
    rw [feed_cons_ok c cs ⟨buf, target⟩ _ h5, g2]
    simp [apply_records, List.foldl_append]

/-- The load of a stream of valid records, in any chunking: every record is applied in stream
order and the buffer ends empty. -/
theorem load_valid (recs : List ref_record) (chunks : List (List Nat))
    (hv : ∀ r ∈ recs, valid_record r) (hc : chunks.flatten = encode_stream recs) :
    load_stream chunks = some (GIT_OK, ⟨[], apply_records git_sortedcache_new recs⟩) := by
  have hnew : no_newline_names git_sortedcache_new := by
    intro e he
    simp [git_sortedcache_new] at he
  obtain ⟨parsed, rest, h1, h2⟩ :=
    feed_valid chunks recs hv [] git_sortedcache_new (by simpa using hc) hnew
  have hvr : ∀ r ∈ rest, valid_record r := fun r hr => hv r (by simp [h1, hr])
  have hvp : ∀ r ∈ parsed, valid_record r := fun r hr => hv r (by simp [h1, hr])
  obtain ⟨parsed2, rest2, res, g1, g2, g3, g4⟩ :=
    parse_loop_valid true rest hvr (encode_stream rest) [] (apply_records git_sortedcache_new parsed)
      ((encode_stream rest).length + 1) (by simp)
      (no_newline_apply_all parsed _ hnew hvp) (by omega)
  simp only [List.append_nil] at g3
  have hr2 : rest2 = [] := encode_stream_newline rest2 (g3 ▸ g2)
  subst hr2
  have hres : res = [] := by simpa [encode_stream] using g3
  subst hres
  unfold load_stream
  rw [h2]
  simp only
  unfold ref_write_parse
  rw [g4]
  simp [h1, g1, apply_records, List.foldl_append]

/-! ## Lookups in the loaded cache -/

theorem lookup_some (sc : git_sortedcache) (n : List Nat) (e : packref)
    (h : git_sortedcache_lookup sc n = some e) : e.name = n ∧ e ∈ sc.items := by
  unfold git_sortedcache_lookup at h
  exact ⟨by simpa using List.find?_some h, List.mem_of_find?_eq_some h⟩

theorem lookup_store (sc : git_sortedcache) (k oid n : List Nat) :
    git_sortedcache_lookup (store_oid sc k oid) n =
      (git_sortedcache_lookup sc n).map
        (fun r => if r.name = k then { r with oid := oid } else r) := by
  obtain ⟨items⟩ := sc
  unfold git_sortedcache_lookup store_oid
  simp only
  induction items with
  | nil => rfl
  | cons a items ih =>
    simp only [List.map_cons, List.find?_cons]
    have hname : (if a.name = k then { a with oid := oid } else a).name = a.name := by
      split <;> rfl
    rw [hname]
    by_cases hn : a.name = n
    · simp [hn]
    · simp [hn, ih]

theorem lookup_upsert (sc : git_sortedcache) (k n : List Nat) :
    git_sortedcache_lookup (git_sortedcache_upsert sc k) n =
      match git_sortedcache_lookup sc n with
      | some e => some e
      | none => if k = n then some ⟨zero_oid, zero_oid, 0, k⟩ else none := by
  unfold git_sortedcache_upsert
  cases hk : git_sortedcache_lookup sc k with
  | some e0 =>
    simp only
    cases hn : git_sortedcache_lookup sc n with
    | some e => rfl
    | none =>
      have : ¬ k = n := by
        intro e
        rw [e, hn] at hk
        exact Option.noConfusion hk
      simp [this]
  | none =>
    simp only
    cases hn : git_sortedcache_lookup sc n with
    | some e =>
      unfold git_sortedcache_lookup at hn ⊢
      simp [List.find?_append, hn]
    | none =>
      unfold git_sortedcache_lookup at hn ⊢
      simp only [List.find?_append, hn, Option.or, List.find?_cons, List.find?_nil]
      by_cases e : k = n <;> simp [e]

theorem lookup_apply_real (sc : git_sortedcache) (r : ref_record) (n : List Nat)
    (hc : zero_extras sc) (hr : r.type = cbytes "real") :
    git_sortedcache_lookup (apply_record sc r) n =
      if r.name = n then some ⟨hex_oid r.value, zero_oid, 0, n⟩
      else git_sortedcache_lookup sc n := by
  unfold apply_record
  simp only [hr, if_true]
  rw [lookup_store, lookup_upsert]
  cases hn : git_sortedcache_lookup sc n with
  | some e =>
    obtain ⟨h1, h2⟩ := lookup_some sc n e hn
    obtain ⟨h3, h4⟩ := hc e h2
    by_cases hk : r.name = n
    · have : e.name = r.name := by rw [h1, hk]
      simp only [Option.map_some', this, if_true, hk]
      congr 1
      cases e
      simp_all
    · have : ¬ e.name = r.name := by
        rw [h1]
        exact fun e => hk e.symm
      simp [this, hk]
  | none =>
    by_cases hk : r.name = n
    · simp [hk]
    · simp [hk]

theorem zero_extras_apply (sc : git_sortedcache) (r : ref_record) (hc : zero_extras sc) :
    zero_extras (apply_record sc r) := by
  unfold apply_record
  split
  · intro e he
    simp only [store_oid, List.mem_map] at he
    obtain ⟨a, ha, rfl⟩ := he
    have ha2 : a.peel = zero_oid ∧ a.flags = 0 := by
      unfold git_sortedcache_upsert at ha
      cases hk : git_sortedcache_lookup sc r.name with
      | some e0 =>
        rw [hk] at ha
        exact hc a ha
      | none =>
        rw [hk] at ha
        simp only [List.mem_append, List.mem_singleton] at ha
        rcases ha with ha | ha
        · exact hc a ha
        · rw [ha]
          exact ⟨rfl, rfl⟩
    split <;> exact ha2
  · exact hc

theorem lookup_apply_records (recs : List ref_record) :
    ∀ (sc : git_sortedcache) (n : List Nat), zero_extras sc →
      (∀ r ∈ recs, r.type = cbytes "real") →
      git_sortedcache_lookup (apply_records sc recs) n =
        match last_record recs n with
        | some r => some ⟨hex_oid r.value, zero_oid, 0, n⟩
        | none => git_sortedcache_lookup sc n := by
  induction recs with
  | nil =>
    intro sc n _ _
    rfl
  | cons r rs ih =>
    intro sc n hc hr
    have h := ih (apply_record sc r) n (zero_extras_apply sc r hc)
      (fun x hx => hr x (by simp [hx]))
    have e : apply_records sc (r :: rs) = apply_records (apply_record sc r) rs := rfl
    rw [e, h, lookup_apply_real sc r n hc (hr r (by simp))]
    have hl : last_record (r :: rs) n =
        (last_record rs n).or (if r.name = n then some r else none) := by
      unfold last_record
      simp only [List.reverse_cons, List.find?_append, List.find?_cons, List.find?_nil]
      by_cases hk : r.name = n <;> simp [hk]
    rw [hl]
    cases last_record rs n with
    | some r1 => rfl
    | none =>
      by_cases hk : r.name = n <;> simp [hk]

/-! ## The claims on the reference-list parser -/

/-- C1: a stream made only of newline-terminated `"real"` records whose names have no NUL and
no newline and whose values are 40 hexadecimal characters, fed to `ref_write_callback` in
any chunking and followed by `ref_write_parse` in final mode, loads with success; a lookup
of a name then returns the object id written by the 40 digits of the last record that
carries the name, and `GIT_ENOTFOUND` for a name that no record carries. -/
theorem real_records_lookup (recs : List ref_record) (chunks : List (List Nat)) (env : load_env)
    (name : List Nat) (hv : ∀ r ∈ recs, valid_real r) (hc : chunks.flatten = encode_stream recs) :
    ∃ data, load_stream chunks = some (GIT_OK, data) ∧
      refdb_rs__lookup env ⟨some data.target⟩ name =
        some (match last_record recs name with
          | some r => (GIT_OK, some ⟨name, hex_oid r.value, zero_oid⟩, ⟨some data.target⟩)
          | none => (GIT_ENOTFOUND, none, ⟨some data.target⟩)) := by
  refine ⟨_, load_valid recs chunks (fun r hr => Or.inl (hv r hr)) hc, ?_⟩
  have hl := lookup_apply_records recs git_sortedcache_new name
    (by intro e he; simp [git_sortedcache_new] at he) (fun r hr => (hv r hr).1)
  unfold refdb_rs__lookup _ensure_refs_loaded
  simp only [ne_eq, reduceCtorEq, not_false_eq_true, if_true, not_true_eq_false, if_false]
  rw [hl]
  cases last_record recs name with
  | some r => rfl
  | none => rfl

theorem real_records_lookup_witness :
    ∃ data, load_stream sample_chunks = some (GIT_OK, data) ∧
      refdb_rs__lookup idle_env ⟨some data.target⟩ (cbytes "a") =
        some (GIT_OK, some ⟨cbytes "a", List.replicate 20 51, zero_oid⟩, ⟨some data.target⟩) :=
  real_records_lookup sample_records sample_chunks idle_env (cbytes "a") (by decide) (by decide)

/-- C2, at the failing input: after the load of a `"real"` record for `a` followed by a
`"symb"` record `b` whose value is `a`, the load succeeds, the cache holds `a` only, and the
lookup of `b` returns `GIT_ENOTFOUND` while the lookup of `a` succeeds. -/
theorem symb_record_not_resolved :
    load_stream [symb_stream] =
      some (GIT_OK, ⟨[], ⟨[⟨List.replicate 20 170, zero_oid, 0, cbytes "a"⟩]⟩⟩) ∧
    refdb_rs__lookup idle_env ⟨some ⟨[⟨List.replicate 20 170, zero_oid, 0, cbytes "a"⟩]⟩⟩
        (cbytes "b") =
      some (GIT_ENOTFOUND, none, ⟨some ⟨[⟨List.replicate 20 170, zero_oid, 0, cbytes "a"⟩]⟩⟩) ∧
    refdb_rs__lookup idle_env ⟨some ⟨[⟨List.replicate 20 170, zero_oid, 0, cbytes "a"⟩]⟩⟩
        (cbytes "a") =
      some (GIT_OK, some ⟨cbytes "a", List.replicate 20 170, zero_oid⟩,
        ⟨some ⟨[⟨List.replicate 20 170, zero_oid, 0, cbytes "a"⟩]⟩⟩) := by
  decide

/-- C3: chunk-boundary independence. For a stream of valid records cut into chunks at any
byte offsets, feeding the chunks one at a time to `ref_write_callback` and running
`ref_write_parse` in final mode gives the same return code and the same records as feeding
the stream as one chunk, and that load returns with success. -/
theorem chunk_boundary_independence (recs : List ref_record) (chunks : List (List Nat))
    (hv : ∀ r ∈ recs, valid_record r) (hc : chunks.flatten = encode_stream recs) :
    load_stream chunks = load_stream [encode_stream recs] ∧
      ∃ data, load_stream [encode_stream recs] = some (GIT_OK, data) := by
  have h1 := load_valid recs chunks hv hc
  have h2 := load_valid recs [encode_stream recs] hv (by simp)
  exact ⟨h1.trans h2.symm, _, h2⟩

theorem chunk_boundary_independence_witness :
    load_stream mixed_chunks = load_stream [encode_stream mixed_records] ∧
      ∃ data, load_stream [encode_stream mixed_records] = some (GIT_OK, data) :=
  chunk_boundary_independence mixed_records mixed_chunks (by decide) (by decide)

/-! ## The residual of a stream -/

theorem residual_no_newline (l : List Nat) (h : 10 ∉ l) : residual l = l := by
  unfold residual
  have : l.reverse.takeWhile (fun b => b ≠ 10) = l.reverse := by
    rw [List.takeWhile_eq_self_iff]
    intro x hx
    have : x ≠ 10 := fun e => h (e ▸ List.mem_reverse.mp hx)
    simpa using this
  rw [this, List.reverse_reverse]

theorem takeWhile_append_cons_stop (p : Nat → Bool) (xs ys : List Nat) (y : Nat)
    (hy : p y = false) : (xs ++ y :: ys).takeWhile p = xs.takeWhile p := by
  induction xs with
  | nil => simp [List.takeWhile, hy]
  | cons x xs ih =>
    simp only [List.cons_append, List.takeWhile]
    cases p x <;> simp [ih]

theorem residual_line (a rest : List Nat) : residual (a ++ 10 :: rest) = residual rest := by
  unfold residual
  have : (a ++ 10 :: rest).reverse = rest.reverse ++ 10 :: a.reverse := by simp
  rw [this, takeWhile_append_cons_stop _ _ _ _ (by simp)]

theorem residual_mem (l : List Nat) : 10 ∉ residual l := by
  unfold residual
  intro h
  have h1 := List.mem_reverse.mp h
  have h2 := List.mem_takeWhile_imp h1
  simp at h2

theorem residual_append_aux (n : Nat) :
    ∀ (x y : List Nat), x.length ≤ n → residual (residual x ++ y) = residual (x ++ y) := by
  induction n with
  | zero =>
    intro x y hx
    have : x = [] := List.length_eq_zero.mp (by omega)
    subst this
    rfl
  | succ n ih =>
    intro x y hx
    cases hf : find_newline x 0 with
    | none => rw [residual_no_newline x (find_newline_mem x 0 hf)]
    | some k =>
      obtain ⟨a, rest, hx1, _, _⟩ := find_newline_some x 0 k hf
      subst hx1
      rw [residual_line, List.append_assoc, List.cons_append, residual_line]
      exact ih rest y (by simp at hx; omega)

theorem residual_append (x y : List Nat) : residual (residual x ++ y) = residual (x ++ y) :=
  residual_append_aux x.length x y (le_refl _)

/-- A non-final run that succeeds leaves the bytes after the last newline in the buffer, and
the final run on the same state gives an error exactly when those bytes are not empty. -/
theorem loop_residual (fuel : Nat) :
    ∀ (data d1 : refretrieve), ref_write_parse_loop fuel data false = some (GIT_OK, d1) →
      d1.buffer = residual data.buffer ∧
      ref_write_parse_loop fuel data true =
        some (if residual data.buffer = [] then GIT_OK else GIT_ERROR, d1) := by
  induction fuel with
  | zero =>
    intro data d1 h
    simp [ref_write_parse_loop] at h
  | succ f ih =>
    intro data d1 h
    cases hf : find_newline data.buffer 0 with
    | none =>
      have hr := residual_no_newline data.buffer (find_newline_mem _ 0 hf)
      rw [loop_none f data false hf] at h
      simp only [Bool.false_eq_true, false_and, if_false, Option.some.injEq, Prod.mk.injEq,
        true_and] at h
      subst h
      refine ⟨hr.symm, ?_⟩
      rw [loop_none f data true hf, hr]
      by_cases hb : data.buffer = [] <;> simp [hb]
    | some k =>
      obtain ⟨a, rest, hx, _, hk⟩ := find_newline_some data.buffer 0 k hf
      cases hp : parse_ref data.target (git_buf_cstr data.buffer) 0 k with
      | mk e t =>
        by_cases he : e = GIT_OK
        · subst he
          rw [loop_some_ok f data false k t hf hp] at h
          have hc : git_buf_consume data.buffer (k + 1) = rest := by
            rw [hx, hk, Nat.zero_add]
            exact consume_line a rest
          rw [hc] at h
          obtain ⟨h1, h2⟩ := ih ⟨rest, t⟩ d1 h
          rw [loop_some_ok f data true k t hf hp, hc, hx, residual_line]
          exact ⟨h1, h2⟩
        · rw [loop_some_err f data false k e t hf hp he] at h
          simp only [Option.some.injEq, Prod.mk.injEq] at h
          exact absurd h.1 he

theorem feed_residual (chunks : List (List Nat)) :
    ∀ (data d1 : refretrieve), 10 ∉ data.buffer → feed_chunks chunks data = some (true, d1) →
      d1.buffer = residual (data.buffer ++ chunks.flatten) := by
  induction chunks with
  | nil =>
    intro data d1 hb h
    simp only [feed_chunks, Option.some.injEq, Prod.mk.injEq, true_and] at h
    subst h
    simp [residual_no_newline _ hb]
  | cons c cs ih =>
    intro data d1 hb h
    cases hp : ref_write_parse ⟨data.buffer ++ c, data.target⟩ false with
    | none =>
      simp [feed_chunks, ref_write_callback, git_buf_put, hp] at h
    | some r =>
      obtain ⟨e, d2⟩ := r
      by_cases he : e = GIT_OK
      · subst he
        rw [feed_cons_ok c cs data d2 hp] at h
        obtain ⟨h1, _⟩ := loop_residual _ _ _ hp
        simp only at h1
        have h2 := ih d2 d1 (h1 ▸ residual_mem _) h
        rw [h2, h1, residual_append]
        simp
      · rw [feed_cons_err c cs data d2 e he hp] at h
        simp at h

/-- C4: when every chunk of a stream went through `ref_write_callback` with success (every
newline-terminated line parsed), the final-mode `ref_write_parse` returns an error exactly
when the bytes after the last newline of the stream are not empty; so it succeeds for an
empty stream and for a stream that ends at a newline. In non-final mode a buffer without a
newline is never an error and stays in the buffer as it is. The same holds for
`ref_write_parse` on any buffer whose lines all parse: the non-final run leaves the bytes
after the last newline, and the final run fails exactly when they are not empty. -/
theorem final_parse_truncated (chunks : List (List Nat)) (data : refretrieve)
    (h : feed_chunks chunks ⟨[], git_sortedcache_new⟩ = some (true, data)) :
    (∃ rc, load_stream chunks = some (rc, data) ∧
      (rc ≠ GIT_OK ↔ residual chunks.flatten ≠ [])) ∧
    (chunks.flatten = [] → load_stream chunks = some (GIT_OK, data)) ∧
    (∀ s, chunks.flatten = s ++ [10] → load_stream chunks = some (GIT_OK, data)) ∧
    (∀ d : refretrieve, 10 ∉ d.buffer → ref_write_parse d false = some (GIT_OK, d)) ∧
    (∀ d d1 : refretrieve, ref_write_parse d false = some (GIT_OK, d1) →
      d1.buffer = residual d.buffer ∧
      ref_write_parse d true =
        some (if residual d.buffer = [] then GIT_OK else GIT_ERROR, d1)) := by
  have hb := feed_residual chunks ⟨[], git_sortedcache_new⟩ data (by simp) h
  simp only [List.nil_append] at hb
  have hl : load_stream chunks =
      some (if residual chunks.flatten = [] then GIT_OK else GIT_ERROR, data) := by
    unfold load_stream
    rw [h]
    simp only
    unfold ref_write_parse
    have hn : find_newline data.buffer 0 = none :=
      find_newline_none _ 0 (hb ▸ residual_mem _)
    rw [loop_none _ data true hn, hb]
    by_cases e : residual chunks.flatten = [] <;> simp [e]
  refine ⟨⟨_, hl, ?_⟩, ?_, ?_, ?_, fun d d1 hd => loop_residual _ d d1 hd⟩
  · by_cases e : residual chunks.flatten = [] <;> simp [e]
  · intro e
    rw [hl, e]
    rfl
  · intro s e
    rw [hl, e]
    have : residual (s ++ [10]) = [] := by
      rw [residual_line]
      rfl
    simp [this]
  · intro d hd
    unfold ref_write_parse
    rw [loop_none _ d false (find_newline_none _ 0 hd)]
    simp

theorem final_parse_truncated_witness :
    (∃ rc, load_stream truncated_chunks =
        some (rc, ⟨cbytes "real\x00c", apply_records git_sortedcache_new
          [⟨cbytes "real", cbytes "a", List.replicate 40 49⟩,
           ⟨cbytes "real", cbytes "b", List.replicate 40 50⟩]⟩) ∧
      (rc ≠ GIT_OK ↔ residual truncated_chunks.flatten ≠ [])) ∧
    residual truncated_chunks.flatten = cbytes "real\x00c" :=
  ⟨(final_parse_truncated truncated_chunks _ (by decide)).1, by decide⟩

/-- C5, at the failing input: a `"real"` record whose value has 41 hexadecimal characters.
Its line ends at offset 48, `parse_ref` returns `GIT_OK` for it and stores the object id of
the first 40 characters, and the whole load succeeds. -/
theorem long_real_value_accepted :
    find_newline long_value_stream 0 = some 48 ∧
    parse_ref git_sortedcache_new (git_buf_cstr long_value_stream) 0 48 =
      (GIT_OK, ⟨[⟨List.replicate 20 170, zero_oid, 0, cbytes "a"⟩]⟩) ∧
    load_stream [long_value_stream] =
      some (GIT_OK, ⟨[], ⟨[⟨List.replicate 20 170, zero_oid, 0, cbytes "a"⟩]⟩⟩) := by
  decide

/-- C6, at the failing input: a line with two NUL separators whose type field is `"xxxx"` and
whose value field is 40 hexadecimal characters followed by a NUL. Its line ends at offset 48,
`parse_ref` returns `GIT_OK` for it and stores a record, and the whole load succeeds. -/
theorem invalid_type_accepted :
    find_newline bad_type_stream 0 = some 48 ∧
    parse_ref git_sortedcache_new (git_buf_cstr bad_type_stream) 0 48 =
      (GIT_OK, ⟨[⟨List.replicate 20 170, zero_oid, 0, cbytes "n"⟩]⟩) ∧
    load_stream [bad_type_stream] =
      some (GIT_OK, ⟨[], ⟨[⟨List.replicate 20 170, zero_oid, 0, cbytes "n"⟩]⟩⟩) := by
  decide

/-- C7: for a line (the bytes from the start of the buffer to its first newline) with fewer
than two NUL bytes, the empty line included, `parse_ref` returns `GIT_ERROR` and leaves the
target collection as it was, and `ref_write_parse` returns that error in either mode. -/
theorem malformed_line_rejected (target : git_sortedcache) (line rest : List Nat)
    (hnl : 10 ∉ line) (h : line.count 0 < 2) :
    find_newline (line ++ 10 :: rest) 0 = some line.length ∧
    parse_ref target (git_buf_cstr (line ++ 10 :: rest)) 0 line.length = (GIT_ERROR, target) ∧
    ∀ final, ref_write_parse ⟨line ++ 10 :: rest, target⟩ final =
      some (GIT_ERROR, ⟨line ++ 10 :: rest, target⟩) := by
  have hf : find_newline (line ++ 10 :: rest) 0 = some line.length := by
    simpa using find_newline_append line rest 0 hnl
  have hp : parse_ref target (git_buf_cstr (line ++ 10 :: rest)) 0 line.length =
      (GIT_ERROR, target) := by
    apply parse_ref_few
    have : ((git_buf_cstr (line ++ 10 :: rest)).drop 0).take (line.length - 0) = line := by
      simp [git_buf_cstr]
    rw [this]
    exact h
  refine ⟨hf, hp, ?_⟩
  intro final
  unfold ref_write_parse
  rw [loop_some_err _ ⟨line ++ 10 :: rest, target⟩ final line.length GIT_ERROR target hf hp
    (by decide)]

theorem malformed_line_rejected_witness :
    (10 ∉ cbytes "real\x00abc" ∧ (cbytes "real\x00abc").count 0 < 2) ∧
    parse_ref ⟨[⟨List.replicate 20 170, zero_oid, 0, cbytes "a"⟩]⟩
      (git_buf_cstr (cbytes "real\x00abc" ++ 10 :: cbytes "real\x00")) 0
      (cbytes "real\x00abc").length =
      (GIT_ERROR, ⟨[⟨List.replicate 20 170, zero_oid, 0, cbytes "a"⟩]⟩) :=
  ⟨by decide,
    (malformed_line_rejected ⟨[⟨List.replicate 20 170, zero_oid, 0, cbytes "a"⟩]⟩
      (cbytes "real\x00abc") (cbytes "real\x00") (by decide) (by decide)).2.1⟩

/-! ## The order of names -/

theorem strcmp_eq_zero (a b : List Nat) : strcmp a b = 0 ↔ a = b := by
  induction a generalizing b with
  | nil => cases b <;> simp [strcmp]
  | cons x a ih =>
    cases b with
    | nil => simp [strcmp]
    | cons y b =>
      by_cases hxy : x = y
      · simp [strcmp, hxy, ih]
      · by_cases hlt : x < y <;> simp [strcmp, hxy, hlt]

theorem strcmp_total (a b : List Nat) : strcmp a b ≤ 0 ∨ strcmp b a ≤ 0 := by
  induction a generalizing b with
  | nil => cases b <;> simp [strcmp]
  | cons x a ih =>
    cases b with
    | nil => simp [strcmp]
    | cons y b =>
      by_cases hxy : x = y
      · subst hxy
        simpa [strcmp] using ih b
      · have hyx : ¬ y = x := fun e => hxy e.symm
        by_cases hlt : x < y
        · simp [strcmp, hxy, hlt]
        · have : y < x := by omega
          simp [strcmp, hyx, this]

theorem strcmp_trans (a b c : List Nat) (h1 : strcmp a b ≤ 0) (h2 : strcmp b c ≤ 0) :
    strcmp a c ≤ 0 := by
  induction a generalizing b c with
  | nil => cases c <;> simp [strcmp]
  | cons x a ih =>
    cases b with
    | nil => simp [strcmp] at h1
    | cons y b =>
      cases c with
      | nil => simp [strcmp] at h2
      | cons z c =>
        by_cases hxy : x = y
        · subst hxy
          by_cases hxz : x = z
          · subst hxz
            simp only [strcmp, if_true] at h1 h2 ⊢
            exact ih b c h1 h2
          · by_cases hlt : x < z
            · simp [strcmp, hxz, hlt]
            · simp [strcmp, hxz, hlt] at h2
        · by_cases hlt : x < y
          · by_cases hyz : y = z
            · subst hyz
              simp [strcmp, hxy, hlt]
            · by_cases hlt2 : y < z
              · have h3 : ¬ x = z := by omega
                have h4 : x < z := by omega
                simp [strcmp, h3, h4]
              · simp [strcmp, hyz, hlt2] at h2
          · simp [strcmp, hxy, hlt] at h1

theorem strcmp_lt (a b : List Nat) (h : strcmp a b ≤ 0) (hne : a ≠ b) : a < b := by
  induction a generalizing b with
  | nil =>
    cases b with
    | nil => exact absurd rfl hne
    | cons y b => exact List.Lex.nil
  | cons x a ih =>
    cases b with
    | nil => simp [strcmp] at h
    | cons y b =>
      by_cases hxy : x = y
      · subst hxy
        simp only [strcmp, if_true] at h
        have hab : a ≠ b := fun e => hne (by rw [e])
        exact List.Lex.cons (ih b h hab)
      · by_cases hlt : x < y
        · exact List.Lex.rel hlt
        · simp [strcmp, hxy, hlt] at h

/-! ## Unique names -/

theorem store_names (sc : git_sortedcache) (k oid : List Nat) :
    (store_oid sc k oid).items.map packref.name = sc.items.map packref.name := by
  simp only [store_oid, List.map_map]
  apply List.map_congr_left
  intro a _
  simp only [Function.comp]
  split <;> rfl

theorem nodup_store (sc : git_sortedcache) (k oid : List Nat) (h : names_nodup sc) :
    names_nodup (store_oid sc k oid) := by
  unfold names_nodup
  rw [store_names]
  exact h

theorem nodup_upsert (sc : git_sortedcache) (k : List Nat) (h : names_nodup sc) :
    names_nodup (git_sortedcache_upsert sc k) := by
  unfold git_sortedcache_upsert
  cases hk : git_sortedcache_lookup sc k with
  | some e => exact h
  | none =>
    unfold names_nodup
    simp only [List.map_append, List.map_cons, List.map_nil]
    unfold git_sortedcache_lookup at hk
    rw [List.find?_eq_none] at hk
    apply List.Nodup.append h (by simp)
    intro n hn1 hn2
    simp only [List.mem_singleton] at hn2
    subst hn2
    obtain ⟨e, he, hen⟩ := List.mem_map.mp hn1
    exact hk e he (by simpa using hen)

theorem nodup_parse_symb (sc : git_sortedcache) (name val : List Nat) (h : names_nodup sc) :
    names_nodup (parse_symb_ref sc name val).2 := by
  unfold parse_symb_ref
  cases git_sortedcache_lookup sc val with
  | none => exact h
  | some e => exact nodup_store _ _ _ (nodup_upsert _ _ h)

theorem nodup_parse_ref (sc : git_sortedcache) (m : List Nat) (start stop : Nat)
    (h : names_nodup sc) : names_nodup (parse_ref sc m start stop).2 := by
  unfold parse_ref
  split
  · simp only
    split_ifs
    all_goals
      first
        | exact h
        | exact nodup_parse_symb _ _ _ h
        | exact nodup_store _ _ _ (nodup_upsert _ _ h)
  · exact h

theorem nodup_loop (fuel : Nat) :
    ∀ (data : refretrieve) (final : Bool) (r : Int × refretrieve),
      ref_write_parse_loop fuel data final = some r → names_nodup data.target →
      names_nodup r.2.target := by
  induction fuel with
  | zero =>
    intro data final r h
    simp [ref_write_parse_loop] at h
  | succ f ih =>
    intro data final r h hn
    cases hf : find_newline data.buffer 0 with
    | none =>
      rw [loop_none f data final hf] at h
      simp only [Option.some.injEq] at h
      rw [← h]
      exact hn
    | some k =>
      have hp := nodup_parse_ref data.target (git_buf_cstr data.buffer) 0 k hn
      cases hq : parse_ref data.target (git_buf_cstr data.buffer) 0 k with
      | mk e t =>
        rw [hq] at hp
        by_cases he : e = GIT_OK
        · subst he
          rw [loop_some_ok f data final k t hf hq] at h
          exact ih _ final r h hp
        · rw [loop_some_err f data final k e t hf hq he] at h
          simp only [Option.some.injEq] at h
          rw [← h]
          exact hp

theorem nodup_feed (chunks : List (List Nat)) :
    ∀ (data : refretrieve) (r : Bool × refretrieve), feed_chunks chunks data = some r →
      names_nodup data.target → names_nodup r.2.target := by
  induction chunks with
  | nil =>
    intro data r h hn
    simp only [feed_chunks, Option.some.injEq] at h
    rw [← h]
    exact hn
  | cons c cs ih =>
    intro data r h hn
    cases hp : ref_write_parse ⟨data.buffer ++ c, data.target⟩ false with
    | none =>
      simp [feed_chunks, ref_write_callback, git_buf_put, hp] at h
    | some q =>
      obtain ⟨e, d2⟩ := q
      have hd2 : names_nodup d2.target := nodup_loop _ _ false (e, d2) hp hn
      by_cases he : e = GIT_OK
      · subst he
        rw [feed_cons_ok c cs data d2 hp] at h
        exact ih d2 r h hd2
      · rw [feed_cons_err c cs data d2 e he hp] at h
        simp only [Option.some.injEq] at h
        rw [← h]
        exact hd2

theorem nodup_load (chunks : List (List Nat)) (r : Int × refretrieve)
    (h : load_stream chunks = some r) : names_nodup r.2.target := by
  have hnew : names_nodup git_sortedcache_new := by
    simp [names_nodup, git_sortedcache_new]
  unfold load_stream at h
  cases hf : feed_chunks chunks ⟨[], git_sortedcache_new⟩ with
  | none => simp [hf] at h
  | some q =>
    obtain ⟨b, d⟩ := q
    have hd : names_nodup d.target := nodup_feed chunks _ (b, d) hf hnew
    rw [hf] at h
    cases b with
    | false =>
      simp only [Option.some.injEq] at h
      rw [← h]
      exact hd
    | true =>
      simp only at h
      exact nodup_loop _ d true r h hd

/-! ## The sorted snapshot -/

theorem sorted_items_sorted (sc : git_sortedcache) :
    (sorted_items sc).Sorted (fun a b => packref_cmp a b ≤ 0) :=
  @List.sorted_insertionSort _ (fun a b => packref_cmp a b ≤ 0) _
    ⟨fun a b => strcmp_total a.name b.name⟩
    ⟨fun a b c h1 h2 => strcmp_trans a.name b.name c.name h1 h2⟩ sc.items

theorem sorted_items_perm (sc : git_sortedcache) : (sorted_items sc).Perm sc.items :=
  List.perm_insertionSort _ sc.items

theorem sorted_items_copy (sc : git_sortedcache) :
    sorted_items (git_sortedcache_copy sc) = sorted_items sc :=
  List.Sorted.insertionSort_eq (sorted_items_sorted sc)

theorem sorted_items_strict (sc : git_sortedcache) (h : names_nodup sc) :
    (sorted_items sc).Pairwise (fun a b => a.name < b.name) := by
  have h1 : (sorted_items sc).Pairwise (fun a b => packref_cmp a b ≤ 0) := sorted_items_sorted sc
  have h2 : ((sorted_items sc).map packref.name).Nodup :=
    ((sorted_items_perm sc).map packref.name).nodup_iff.mpr h
  have h3 : (sorted_items sc).Pairwise (fun a b => a.name ≠ b.name) := List.pairwise_map.mp h2
  exact (h1.and h3).imp (fun hab => strcmp_lt _ _ hab.1 hab.2)

theorem sorted_items_of_perm (sc other : git_sortedcache) (h : names_nodup sc)
    (hp : other.items.Perm sc.items) : sorted_items other = sorted_items sc := by
  have ho : names_nodup other := (hp.map packref.name).nodup_iff.mpr h
  have hperm : (sorted_items other).Perm (sorted_items sc) :=
    ((sorted_items_perm other).trans hp).trans (sorted_items_perm sc).symm
  exact @List.eq_of_perm_of_sorted _ (fun a b : packref => a.name < b.name)
    ⟨fun a b h1 h2 => absurd h2 (lt_asymm h1)⟩ _ _ hperm
    (sorted_items_strict other ho) (sorted_items_strict sc h)

/-! ## The iterator -/

theorem get?_of_drop (l : List packref) (n : Nat) (e : packref) (t : List packref)
    (h : l.drop n = e :: t) : l.get? n = some e ∧ l.drop (n + 1) = t ∧ n < l.length := by
  induction l generalizing n with
  | nil => simp at h
  | cons x l ih =>
    cases n with
    | zero =>
      simp only [List.drop_zero, List.cons.injEq] at h
      simp [h.1, h.2]
    | succ n =>
      simp only [List.drop_succ_cons] at h
      obtain ⟨h1, h2, h3⟩ := ih n h
      exact ⟨by simpa using h1, by simpa using h2, by simp; omega⟩

theorem next_loop_spec (fnmatch : List Nat → List Nat → Int) (glob : Option (List Nat))
    (sc : git_sortedcache) (L : List packref) :
    ∀ (pos fuel : Nat), (sorted_items sc).drop pos = L → L.length < fuel →
      ∃ code out pos1,
        refdb_rs__iterator_next_loop fnmatch fuel ⟨glob, git_sortedcache_copy sc, pos⟩ =
          some (code, out, ⟨glob, git_sortedcache_copy sc, pos1⟩) ∧
        match L.dropWhile (fun e => !entry_matches fnmatch glob e) with
        | [] => code = GIT_ITEROVER ∧ out = none
        | e :: rest =>
          code = GIT_OK ∧ out = some (packref_ref e) ∧ (sorted_items sc).drop pos1 = rest := by
  induction L with
  | nil =>
    intro pos fuel hd hf
    obtain ⟨f, rfl⟩ : ∃ f, fuel = f + 1 := ⟨fuel - 1, by omega⟩
    have hlen : ¬ pos < git_sortedcache_entrycount (git_sortedcache_copy sc) := by
      have := List.drop_eq_nil_iff.mp hd
      simp only [git_sortedcache_entrycount, git_sortedcache_copy]
      omega
    refine ⟨GIT_ITEROVER, none, pos, ?_, ?_⟩
    · rw [refdb_rs__iterator_next_loop]
      simp only [hlen, if_false]
    · simp
  | cons e L1 ih =>
    intro pos fuel hd hf
    obtain ⟨f, rfl⟩ : ∃ f, fuel = f + 1 := ⟨fuel - 1, by omega⟩
    obtain ⟨h1, h2, h3⟩ := get?_of_drop _ pos e L1 hd
    have hlen : pos < git_sortedcache_entrycount (git_sortedcache_copy sc) := by
      simpa [git_sortedcache_entrycount, git_sortedcache_copy] using h3
    have hent : git_sortedcache_entry (git_sortedcache_copy sc) pos = some e := by
      unfold git_sortedcache_entry
      rw [sorted_items_copy]
      exact h1
    by_cases hm : entry_matches fnmatch glob e = true
    · refine ⟨GIT_OK, some (packref_ref e), pos + 1, ?_, ?_⟩
      · rw [refdb_rs__iterator_next_loop]
        simp only [hlen, if_true, hent]
        cases glob with
        | none => rfl
        | some g =>
          have : fnmatch g e.name = 0 := by simpa [entry_matches] using hm
          simp [this, packref_ref]
      · simp [List.dropWhile_cons, hm, h2]
    · obtain ⟨code, out, pos1, g1, g2⟩ := ih (pos + 1) f h2 (by simp at hf; omega)
      refine ⟨code, out, pos1, ?_, ?_⟩
      · rw [refdb_rs__iterator_next_loop]
        simp only [hlen, if_true, hent]
        cases glob with
        | none => simp [entry_matches] at hm
        | some g =>
          have : ¬ fnmatch g e.name = 0 := by simpa [entry_matches] using hm
          simp only [ne_eq, this, not_false_eq_true, if_true]
          exact g1
      · have hm2 : entry_matches fnmatch glob e = false := by simpa using hm
        simpa [List.dropWhile_cons, hm2] using g2

theorem dropWhile_filter (p : packref → Bool) (L : List packref) :
    match L.dropWhile (fun e => !p e) with
    | [] => L.filter p = []
    | e :: rest => L.filter p = e :: rest.filter p ∧ rest.length < L.length := by
  induction L with
  | nil => simp
  | cons x L ih =>
    by_cases hx : p x = true
    · simp [List.dropWhile_cons, hx]
    · have hx2 : p x = false := by simpa using hx
      simp only [List.dropWhile_cons, hx2, Bool.not_false, if_true, List.filter_cons,
        Bool.false_eq_true, if_false]
      split at ih
      · exact ih
      · exact ⟨ih.1, by simp; omega⟩

theorem iterate_all_spec (fnmatch : List Nat → List Nat → Int) (glob : Option (List Nat))
    (sc : git_sortedcache) (calls : Nat) :
    ∀ (L : List packref) (pos : Nat), (sorted_items sc).drop pos = L → L.length < calls →
      iterate_all fnmatch calls ⟨glob, git_sortedcache_copy sc, pos⟩ =
        some ((L.filter (entry_matches fnmatch glob)).map packref_ref, GIT_ITEROVER) := by
  induction calls with
  | zero =>
    intro L pos _ hl
    omega
  | succ c ih =>
    intro L pos hd hl
    have hfuel : L.length <
        git_sortedcache_entrycount (git_sortedcache_copy sc) - pos + 1 := by
      rw [← hd, List.length_drop]
      simp only [git_sortedcache_entrycount, git_sortedcache_copy]
      omega
    obtain ⟨code, out, pos1, g1, g2⟩ := next_loop_spec fnmatch glob sc L pos _ hd hfuel
    have hn : refdb_rs__iterator_next fnmatch ⟨glob, git_sortedcache_copy sc, pos⟩ =
        some (code, out, ⟨glob, git_sortedcache_copy sc, pos1⟩) := g1
    have hdf := dropWhile_filter (entry_matches fnmatch glob) L
    split at g2
    · next hdw =>
      rw [hdw] at hdf
      simp only at hdf
      obtain ⟨rfl, rfl⟩ := g2
      rw [iterate_all, hn, hdf]
      rfl
    · next e rest hdw =>
      rw [hdw] at hdf
      simp only at hdf
      obtain ⟨rfl, rfl, hrest⟩ := g2
      have hrec := ih rest pos1 hrest (by omega)
      rw [iterate_all, hn]
      simp only [hrec, hdf.1, List.map_cons]

theorem iterate_spec (fnmatch : List Nat → List Nat → Int) (glob : Option (List Nat))
    (sc : git_sortedcache) :
    iterate fnmatch sc glob =
      some (((sorted_items sc).filter (entry_matches fnmatch glob)).map packref_ref,
        GIT_ITEROVER) := by
  unfold iterate refdb_rs__iterator
  apply iterate_all_spec fnmatch glob sc _ (sorted_items sc) 0 rfl
  have := (sorted_items_perm sc).length_eq
  simp only [git_sortedcache_entrycount]
  omega

set_option maxRecDepth 100000 in
theorem branch_stream_load :
    load_stream [branch_stream] =
      some (GIT_OK, ⟨[], ⟨[⟨List.replicate 20 17, zero_oid, 0, cbytes "feat/a"⟩,
        ⟨List.replicate 20 34, zero_oid, 0, cbytes "main"⟩,
        ⟨List.replicate 20 51, zero_oid, 0, cbytes "feat/b"⟩]⟩⟩) := by
  decide

set_option maxRecDepth 100000 in
theorem branch_stream_iterate :
    (load_stream [branch_stream]).bind
        (fun r => iterate p_fnmatch r.2.target (some (cbytes "feat/*"))) =
      some ([⟨cbytes "feat/a", List.replicate 20 17, zero_oid⟩,
             ⟨cbytes "feat/b", List.replicate 20 51, zero_oid⟩], GIT_ITEROVER) := by
  rw [branch_stream_load]
  decide

/-- C8: over the cache of a successful load, calling the iterator's `next` until it stops
returning `GIT_OK` ends with `GIT_ITEROVER` and yields exactly the records whose name matches
the glob (every record when there is no glob), each once, in strictly ascending byte-wise
order of name; a cache with the same records in another order yields the same sequence. With
the glob `feat/*` over the stream `feat/a`, `main`, `feat/b` it yields `feat/a` and then
`feat/b`, and not `main`. -/
theorem iterator_sorted_matches (fnmatch : List Nat → List Nat → Int)
    (glob : Option (List Nat)) (chunks : List (List Nat)) (data : refretrieve)
    (h : load_stream chunks = some (GIT_OK, data)) :
    (∃ out, iterate fnmatch data.target glob = some (out, GIT_ITEROVER) ∧
      (∀ r, r ∈ out ↔
        ∃ e ∈ data.target.items, entry_matches fnmatch glob e = true ∧ r = packref_ref e) ∧
      out.Pairwise (fun a b => a.name < b.name) ∧ out.Nodup ∧
      (∀ other : git_sortedcache, other.items.Perm data.target.items →
        iterate fnmatch other glob = some (out, GIT_ITEROVER))) ∧
    (load_stream [branch_stream]).bind
        (fun r => iterate p_fnmatch r.2.target (some (cbytes "feat/*"))) =
      some ([⟨cbytes "feat/a", List.replicate 20 17, zero_oid⟩,
             ⟨cbytes "feat/b", List.replicate 20 51, zero_oid⟩], GIT_ITEROVER) := by
  have hn : names_nodup data.target := nodup_load chunks _ h
  have hs := sorted_items_strict data.target hn
  have hout : (((sorted_items data.target).filter (entry_matches fnmatch glob)).map
      packref_ref).Pairwise (fun a b => a.name < b.name) := by
    rw [List.pairwise_map]
    exact hs.filter _
  refine ⟨⟨_, iterate_spec fnmatch glob data.target, ?_, hout, ?_, ?_⟩, branch_stream_iterate⟩
  · intro r
    simp only [List.mem_map, List.mem_filter, (sorted_items_perm data.target).mem_iff]
    constructor
    · rintro ⟨e, ⟨he, hm⟩, rfl⟩
      exact ⟨e, he, hm, rfl⟩
    · rintro ⟨e, he, hm, rfl⟩
      exact ⟨e, ⟨he, hm⟩, rfl⟩
  · have hne : ∀ {a b : git_reference}, a.name < b.name → a ≠ b := by
      intro a b hab e
      subst e
      exact lt_irrefl _ hab
    exact hout.imp hne
  · intro other hp
    rw [iterate_spec, sorted_items_of_perm data.target other hn hp]

theorem iterator_sorted_matches_witness :
    ∃ out, iterate p_fnmatch
        ⟨[⟨List.replicate 20 17, zero_oid, 0, cbytes "feat/a"⟩,
          ⟨List.replicate 20 34, zero_oid, 0, cbytes "main"⟩,
          ⟨List.replicate 20 51, zero_oid, 0, cbytes "feat/b"⟩]⟩ (some (cbytes "feat/*")) =
        some (out, GIT_ITEROVER) ∧
      out.Pairwise (fun a b => a.name < b.name) :=
  have h := (iterator_sorted_matches p_fnmatch (some (cbytes "feat/*")) [branch_stream]
    ⟨[], ⟨[⟨List.replicate 20 17, zero_oid, 0, cbytes "feat/a"⟩,
          ⟨List.replicate 20 34, zero_oid, 0, cbytes "main"⟩,
          ⟨List.replicate 20 51, zero_oid, 0, cbytes "feat/b"⟩]⟩⟩ branch_stream_load).1
  Exists.elim h (fun out ho => ⟨out, ho.1, ho.2.2.1⟩)

/-! ## The load as a whole -/

theorem consume_length (b : List Nat) (k : Nat) (h : find_newline b 0 = some k) :
    (git_buf_consume b (k + 1)).length < b.length := by
  obtain ⟨a, rest, hx, _, hk⟩ := find_newline_some b 0 k h
  subst hx
  rw [hk, Nat.zero_add, consume_line]
  simp
  omega

theorem loop_total (fuel : Nat) :
    ∀ (data : refretrieve) (final : Bool), data.buffer.length < fuel →
      ∃ r, ref_write_parse_loop fuel data final = some r := by
  induction fuel with
  | zero =>
    intro data final h
    omega
  | succ f ih =>
    intro data final h
    cases hf : find_newline data.buffer 0 with
    | none => exact ⟨_, loop_none f data final hf⟩
    | some k =>
      cases hp : parse_ref data.target (git_buf_cstr data.buffer) 0 k with
      | mk e t =>
        by_cases he : e = GIT_OK
        · subst he
          rw [loop_some_ok f data final k t hf hp]
          apply ih
          have := consume_length data.buffer k hf
          simp only
          omega
        · exact ⟨_, loop_some_err f data final k e t hf hp he⟩

theorem parse_total (data : refretrieve) (final : Bool) :
    ∃ r, ref_write_parse data final = some r :=
  loop_total _ data final (Nat.lt_succ_self _)

theorem feed_total (chunks : List (List Nat)) :
    ∀ data : refretrieve, ∃ r, feed_chunks chunks data = some r := by
  induction chunks with
  | nil =>
    intro data
    exact ⟨_, rfl⟩
  | cons c cs ih =>
    intro data
    obtain ⟨⟨e, d2⟩, hp⟩ := parse_total ⟨data.buffer ++ c, data.target⟩ false
    by_cases he : e = GIT_OK
    · subst he
      rw [feed_cons_ok c cs data d2 hp]
      exact ih d2
    · exact ⟨_, feed_cons_err c cs data d2 e he hp⟩

theorem check_curl_ok (code : Nat) (response_code : Int) :
    repospanner_check_curl code response_code = GIT_OK ↔ code = CURLE_OK := by
  unfold repospanner_check_curl
  split_ifs <;> simp_all

theorem failed_load_facts (env : load_env) (backend : refdb_rs_backend) (e : Int) (n : Nat)
    (h : backend.refcache = none) (he : e ≠ GIT_OK) (hn : ¬ load_succeeds env) :
    ((⟨e, backend, n⟩ : ensure_result).error = GIT_OK ↔ load_succeeds env) ∧
    ((⟨e, backend, n⟩ : ensure_result).error = GIT_OK →
      ∃ data1, load_stream env.body = some (GIT_OK, data1) ∧
        (⟨e, backend, n⟩ : ensure_result).backend.refcache = some data1.target) ∧
    ((⟨e, backend, n⟩ : ensure_result).error ≠ GIT_OK →
      (⟨e, backend, n⟩ : ensure_result).backend = backend ∧
      (⟨e, backend, n⟩ : ensure_result).backend.refcache = none ∧
      ∀ env2, _ensure_refs_loaded env2 (⟨e, backend, n⟩ : ensure_result).backend =
        _ensure_refs_loaded env2 backend) :=
  ⟨⟨fun e0 => absurd e0 he, fun l => absurd l hn⟩, fun e0 => absurd e0 he,
    fun _ => ⟨rfl, h, fun _ => rfl⟩⟩

/-- The calls of `_ensure_refs_loaded` that have a defined result. With a cache already in the
backend the call returns `GIT_OK` without preparing a request and leaves the backend as it
is. Without a cache, when the new cache cannot be made or the request is prepared, the call
returns: `GIT_OK` exactly when every step of the load succeeded, and then the cache it
installs is the one of the complete load of the body; in every other case the code is not
`GIT_OK` and the backend is unchanged, its cache still unset. When the new cache is made and
the preparation of the request fails, the call has no defined result. -/
theorem ensure_refs_loaded_returns (env : load_env) (backend : refdb_rs_backend) :
    (backend.refcache ≠ none →
      _ensure_refs_loaded env backend = some (.returned ⟨GIT_OK, backend, 0⟩)) ∧
    (backend.refcache = none → 0 ≤ env.sortedcache_new → env.prepare_request ≠ GIT_OK →
      _ensure_refs_loaded env backend = some .undefined) ∧
    (backend.refcache = none → env.sortedcache_new < 0 ∨ env.prepare_request = GIT_OK →
      ∃ r, _ensure_refs_loaded env backend = some (.returned r) ∧
        (r.error = GIT_OK ↔ load_succeeds env) ∧
        (r.error = GIT_OK →
          ∃ data1, load_stream env.body = some (GIT_OK, data1) ∧
            r.backend.refcache = some data1.target) ∧
        (r.error ≠ GIT_OK →
          r.backend = backend ∧ r.backend.refcache = none ∧
          ∀ env2, _ensure_refs_loaded env2 r.backend = _ensure_refs_loaded env2 backend)) := by
  refine ⟨?_, ?_, ?_⟩
  · intro h
    simp [_ensure_refs_loaded, h]
  · intro h h0 h2
    have h1 : ¬ env.sortedcache_new < 0 := by omega
    simp [_ensure_refs_loaded, h, h1, h2]
  · intro h hbranch
    obtain ⟨⟨ok, data⟩, hfeed⟩ := feed_total env.body ⟨[], git_sortedcache_new⟩
    obtain ⟨⟨rc, data1⟩, hfin⟩ := parse_total data true
    by_cases h1 : env.sortedcache_new < 0
    · refine ⟨⟨env.sortedcache_new, backend, 0⟩, by simp [_ensure_refs_loaded, h, h1],
        failed_load_facts env backend _ _ h ?_ ?_⟩
      · simp only [GIT_OK]
        omega
      · rintro ⟨h0, _⟩
        omega
    have h2 : env.prepare_request = GIT_OK := hbranch.resolve_left h1
    by_cases h3 : env.calloc_ok = true
    swap
    · refine ⟨⟨GIT_ERROR, backend, 1⟩, by simp [_ensure_refs_loaded, h, h1, h2, h3],
        failed_load_facts env backend _ _ h (by decide) ?_⟩
      rintro ⟨_, _, h0, _⟩
      exact h3 h0
    by_cases h4 : env.buf_init = GIT_OK
    swap
    · refine ⟨⟨env.buf_init, backend, 1⟩, by simp [_ensure_refs_loaded, h, h1, h2, h3, h4],
        failed_load_facts env backend _ _ h h4 ?_⟩
      rintro ⟨_, _, _, h0, _⟩
      exact h4 h0
    cases ok with
    | false =>
      refine ⟨⟨GIT_ERROR, backend, 1⟩, ?_, failed_load_facts env backend _ _ h (by decide) ?_⟩
      · simp [_ensure_refs_loaded, h, h1, h2, h3, h4, curl_easy_perform_refs, hfeed,
          repospanner_check_curl]
      · rintro ⟨_, _, _, _, d, h0, _⟩
        rw [hfeed] at h0
        simp at h0
    | true =>
      by_cases h5 : env.curl_result = CURLE_OK
      swap
      · have hc : ¬ repospanner_check_curl env.curl_result env.response_code = GIT_OK := by
          rw [check_curl_ok]
          exact h5
        have hc0 : ¬ repospanner_check_curl env.curl_result env.response_code = 0 := hc
        refine ⟨⟨repospanner_check_curl env.curl_result env.response_code, backend, 1⟩, ?_,
          failed_load_facts env backend _ _ h hc ?_⟩
        · simp [_ensure_refs_loaded, h, h1, h2, h3, h4, curl_easy_perform_refs, hfeed, hc0]
        · rintro ⟨_, _, _, _, d, _, h0, _⟩
          exact h5 h0
      have hc : repospanner_check_curl env.curl_result env.response_code = 0 :=
        (check_curl_ok _ _).mpr h5
      have hload : load_stream env.body = some (rc, data1) := by
        unfold load_stream
        rw [hfeed]
        exact hfin
      by_cases h6 : rc = GIT_OK
      swap
      · refine ⟨⟨GIT_ERROR, backend, 1⟩, ?_,
          failed_load_facts env backend _ _ h (by decide) ?_⟩
        · simp [_ensure_refs_loaded, h, h1, h2, h3, h4, curl_easy_perform_refs, hfeed, hc,
            hfin, h6]
        · rintro ⟨_, _, _, _, d, h0, _, d1, h7⟩
          rw [hfeed] at h0
          simp only [Option.some.injEq, Prod.mk.injEq, true_and] at h0
          subst h0
          rw [hfin] at h7
          simp only [Option.some.injEq, Prod.mk.injEq] at h7
          exact h6 h7.1
      subst h6
      refine ⟨⟨GIT_OK, ⟨some data1.target⟩, 1⟩, ?_, ?_, ?_, ?_⟩
      · simp [_ensure_refs_loaded, h, h1, h2, h3, h4, curl_easy_perform_refs, hfeed, hc, hfin]
      · simp only [true_iff]
        exact ⟨by omega, h2, h3, h4, data, hfeed, h5, data1, hfin⟩
      · intro _
        exact ⟨data1, hload, rfl⟩
      · intro e
        exact absurd rfl e

/-- C9, at the failing input: a first load in which the new cache is made and
`repospanner_prepare_request` fails. The call jumps to `fail`, where `req` and `retriever`
are tested and freed though nothing was assigned to them, so it has no defined result,
where the claim has a non-success return code. A load whose body has a malformed line, with
the request prepared, does return `GIT_ERROR` and leaves the cache unset. -/
theorem prepare_failure_undefined :
    request_fails_env.prepare_request ≠ GIT_OK ∧
    _ensure_refs_loaded request_fails_env ⟨none⟩ = some .undefined ∧
    _ensure_refs_loaded broken_env ⟨none⟩ = some (.returned ⟨GIT_ERROR, ⟨none⟩, 1⟩) := by
  decide

theorem normalize_baseurl_id (u : List Nat) : normalize_baseurl u = u := by
  unfold normalize_baseurl git_buf_cstr
  rw [getD_at_length u 0 []]
  simp

/-- C12, at the failing input: the URL `https://host/repo/`. The byte that the normalization
compares with `/` is the terminating NUL of the buffer, so every URL is stored as it is, and
the client built for the URL `https://host/repo/` has the base URL `https://host/repo/`. -/
theorem trailing_slash_kept :
    (∀ u : List Nat, normalize_baseurl u = u) ∧
    slash_env.url = (GIT_OK, cbytes "https://host/repo/") ∧
    (repospanner_get_client slash_env []).error = GIT_OK ∧
    (repospanner_get_client slash_env []).out.map repoSpanner_client.baseurl =
      some (cbytes "https://host/repo/") :=
  ⟨normalize_baseurl_id, by decide, by decide, by decide⟩

/-- C13, at the failing input: a repository without the option `repospanner.url`, asked for
its client twice. The first call returns `GIT_ERROR` and leaves a record for the `gitdir` in
the registry; the second call, with the same configuration, finds that record and returns
`GIT_OK` with it. -/
theorem failed_client_stays_registered :
    (repospanner_get_client no_url_env []).error = GIT_ERROR ∧
    (repospanner_get_client no_url_env []).out = none ∧
    (client_lookup (repospanner_get_client no_url_env []).registry no_url_env.gitdir).isSome =
      true ∧
    (repospanner_get_client no_url_env (repospanner_get_client no_url_env []).registry).error =
      GIT_OK ∧
    (repospanner_get_client no_url_env (repospanner_get_client no_url_env []).registry).out =
      client_lookup (repospanner_get_client no_url_env []).registry no_url_env.gitdir := by
  decide

/-! ## The registry over a sequence of calls -/

theorem get_client_check (env : client_env) (reg : List repoSpanner_client)
    (h : repo_check_repospanner env ≠ GIT_OK) :
    repospanner_get_client env reg = ⟨repo_check_repospanner env, none, reg, 0⟩ := by
  unfold repospanner_get_client
  rw [if_pos h]

theorem get_client_lock (env : client_env) (reg : List repoSpanner_client)
    (h1 : repo_check_repospanner env = GIT_OK) (h2 : env.wlock ≠ GIT_OK) :
    repospanner_get_client env reg = ⟨GIT_ERROR, none, reg, 0⟩ := by
  unfold repospanner_get_client
  rw [if_neg (not_not.mpr h1), if_pos h2]

theorem get_client_found (env : client_env) (reg : List repoSpanner_client)
    (c : repoSpanner_client) (hc : client_lookup reg env.gitdir = some c)
    (hcheck : repo_check_repospanner env = GIT_OK) (hlock : env.wlock = GIT_OK) :
    repospanner_get_client env reg = ⟨GIT_OK, some c, reg, 0⟩ := by
  unfold repospanner_get_client
  rw [if_neg (not_not.mpr hcheck), if_neg (not_not.mpr hlock), hc]

/-- A call that finds no client under its `gitdir` adds one record for it at the end of the
registry: a freed one, with nothing handed out, or a client whose construction went through,
which it hands out. -/
theorem get_client_new (env : client_env) (reg : List repoSpanner_client)
    (hcheck : repo_check_repospanner env = GIT_OK) (hlock : env.wlock = GIT_OK)
    (hc : client_lookup reg env.gitdir = none) :
    ∃ x : repoSpanner_client, x.gitdir = env.gitdir ∧
      (repospanner_get_client env reg).registry = reg ++ [x] ∧
      (((repospanner_get_client env reg).out = none ∧ x.freed = true) ∨
        ((repospanner_get_client env reg).out = some x ∧ built_client x = true)) := by
  unfold repospanner_get_client
  rw [if_neg (not_not.mpr hcheck), if_neg (not_not.mpr hlock), hc]
  simp only
  split_ifs
  all_goals first
    | exact ⟨_, rfl, rfl, Or.inl ⟨rfl, rfl⟩⟩
    | exact ⟨_, rfl, rfl, Or.inr ⟨rfl, rfl⟩⟩

/-- A call leaves the registry as it is, or adds one record for its own `gitdir` at the end
when none was stored under it. -/
theorem get_client_registry (env : client_env) (reg : List repoSpanner_client) :
    (repospanner_get_client env reg).registry = reg ∨
    (client_lookup reg env.gitdir = none ∧
      ∃ x : repoSpanner_client, x.gitdir = env.gitdir ∧
        (repospanner_get_client env reg).registry = reg ++ [x]) := by
  by_cases h1 : repo_check_repospanner env = GIT_OK
  swap
  · rw [get_client_check env reg h1]
    exact Or.inl rfl
  by_cases h2 : env.wlock = GIT_OK
  swap
  · rw [get_client_lock env reg h1 h2]
    exact Or.inl rfl
  cases h3 : client_lookup reg env.gitdir with
  | some c =>
    rw [get_client_found env reg c h3 h1 h2]
    exact Or.inl rfl
  | none =>
    obtain ⟨x, hx, hr, _⟩ := get_client_new env reg h1 h2 h3
    exact Or.inr ⟨rfl, x, hx, hr⟩

theorem client_lookup_some (reg : List repoSpanner_client) (g : List Nat)
    (c : repoSpanner_client) (h : client_lookup reg g = some c) : c.gitdir = g := by
  unfold client_lookup at h
  simpa using List.find?_some h

theorem client_lookup_append (reg : List repoSpanner_client) (x : repoSpanner_client)
    (g : List Nat) :
    client_lookup (reg ++ [x]) g =
      (client_lookup reg g).or (if x.gitdir = g then some x else none) := by
  unfold client_lookup
  simp only [List.find?_append, List.find?_cons, List.find?_nil]
  by_cases h : x.gitdir = g <;> simp [h]

/-- The client that a call hands out is the one stored under its `gitdir` afterwards. -/
theorem get_client_out (env : client_env) (reg : List repoSpanner_client)
    (c : repoSpanner_client) (h : (repospanner_get_client env reg).out = some c) :
    client_lookup (repospanner_get_client env reg).registry env.gitdir = some c := by
  by_cases h1 : repo_check_repospanner env = GIT_OK
  swap
  · rw [get_client_check env reg h1] at h
    exact Option.noConfusion h
  by_cases h2 : env.wlock = GIT_OK
  swap
  · rw [get_client_lock env reg h1 h2] at h
    exact Option.noConfusion h
  cases h3 : client_lookup reg env.gitdir with
  | some c1 =>
    rw [get_client_found env reg c1 h3 h1 h2] at h ⊢
    simp only [Option.some.injEq] at h
    subst h
    exact h3
  | none =>
    obtain ⟨x, hx, hr, ho⟩ := get_client_new env reg h1 h2 h3
    rcases ho with ⟨ho, _⟩ | ⟨ho, _⟩
    · rw [ho] at h
      exact Option.noConfusion h
    · rw [ho] at h
      simp only [Option.some.injEq] at h
      subst h
      rw [hr, client_lookup_append, h3]
      simp [hx]

theorem get_client_keeps (env : client_env) (reg : List repoSpanner_client) (g : List Nat)
    (c : repoSpanner_client) (h : client_lookup reg g = some c) :
    client_lookup (repospanner_get_client env reg).registry g = some c := by
  rcases get_client_registry env reg with e | ⟨_, x, _, e⟩
  · rw [e]
    exact h
  · rw [e, client_lookup_append, h]
    rfl

theorem run_calls_keeps (calls : List client_env) :
    ∀ (reg : List repoSpanner_client) (g : List Nat) (c : repoSpanner_client),
      client_lookup reg g = some c → client_lookup (run_calls calls reg) g = some c := by
  induction calls with
  | nil =>
    intro reg g c h
    exact h
  | cons env envs ih =>
    intro reg g c h
    exact ih _ g c (get_client_keeps env reg g c h)

theorem get_client_nodup (env : client_env) (reg : List repoSpanner_client)
    (h : gitdirs_nodup reg) : gitdirs_nodup (repospanner_get_client env reg).registry := by
  rcases get_client_registry env reg with e | ⟨hn, x, hx, e⟩
  · rw [e]
    exact h
  · rw [e]
    unfold gitdirs_nodup
    simp only [List.map_append, List.map_cons, List.map_nil]
    unfold client_lookup at hn
    rw [List.find?_eq_none] at hn
    apply List.Nodup.append h (by simp)
    intro n hn1 hn2
    simp only [List.mem_singleton] at hn2
    subst hn2
    obtain ⟨e1, he1, hen⟩ := List.mem_map.mp hn1
    exact hn e1 he1 (by simpa [hx] using hen)

theorem run_calls_nodup (calls : List client_env) :
    ∀ reg : List repoSpanner_client, gitdirs_nodup reg → gitdirs_nodup (run_calls calls reg) := by
  induction calls with
  | nil =>
    intro reg h
    exact h
  | cons env envs ih =>
    intro reg h
    exact ih _ (get_client_nodup env reg h)

theorem get_client_other (env : client_env) (reg : List repoSpanner_client) (g : List Nat)
    (hg : g ≠ env.gitdir) :
    client_lookup (repospanner_get_client env reg).registry g = client_lookup reg g := by
  rcases get_client_registry env reg with e | ⟨_, x, hx, e⟩
  · rw [e]
  · rw [e, client_lookup_append]
    have : ¬ x.gitdir = g := by
      rw [hx]
      exact fun e1 => hg e1.symm
    simp [this]

theorem get_client_gated (env : client_env) (reg : List repoSpanner_client)
    (h : repo_check_repospanner env ≠ GIT_OK ∨ env.wlock ≠ GIT_OK) :
    (repospanner_get_client env reg).error ≠ GIT_OK ∧
    (repospanner_get_client env reg).out = none ∧
    (repospanner_get_client env reg).registry = reg := by
  by_cases h1 : repo_check_repospanner env = GIT_OK
  · rw [get_client_lock env reg h1 (h.resolve_left (not_not.mpr h1))]
    have he : GIT_ERROR ≠ GIT_OK := by decide
    exact ⟨he, rfl, rfl⟩
  · rw [get_client_check env reg h1]
    exact ⟨h1, rfl, rfl⟩

/-- Counterexample to the claim on later calls as it is stated: the first call for a
repository builds its client and hands it out; a later call for the same `gitdir`, made
after `repospanner.enabled` was set to false, is stopped by `repo_check_repospanner` and
returns `GIT_ENOTFOUND` and no client. -/
theorem later_call_gated :
    repospanner_get_client slash_env [] = ⟨GIT_OK, some slash_client, [slash_client], 1⟩ ∧
    disabled_env.gitdir = slash_env.gitdir ∧
    repospanner_get_client disabled_env [slash_client] =
      ⟨GIT_ENOTFOUND, none, [slash_client], 0⟩ ∧
    (repospanner_get_client disabled_env [slash_client]).out ≠ some slash_client := by
  decide

theorem client_lookup_mem (reg : List repoSpanner_client) (g : List Nat)
    (c : repoSpanner_client) (h : client_lookup reg g = some c) : c ∈ reg :=
  List.mem_of_find?_eq_some h

theorem get_client_freed_or_built (env : client_env) (reg : List repoSpanner_client)
    (h : freed_or_built reg) : freed_or_built (repospanner_get_client env reg).registry := by
  by_cases h1 : repo_check_repospanner env = GIT_OK
  swap
  · rw [get_client_check env reg h1]
    exact h
  by_cases h2 : env.wlock = GIT_OK
  swap
  · rw [get_client_lock env reg h1 h2]
    exact h
  cases h3 : client_lookup reg env.gitdir with
  | some c =>
    rw [get_client_found env reg c h3 h1 h2]
    exact h
  | none =>
    obtain ⟨x, _, hr, ho⟩ := get_client_new env reg h1 h2 h3
    rw [hr]
    intro y hy
    simp only [List.mem_append, List.mem_singleton] at hy
    rcases hy with hy | hy
    · exact h y hy
    · subst hy
      rcases ho with ⟨_, hf⟩ | ⟨_, hb⟩
      · exact Or.inl hf
      · exact Or.inr hb

theorem run_calls_freed_or_built (calls : List client_env) :
    ∀ reg : List repoSpanner_client, freed_or_built reg →
      freed_or_built (run_calls calls reg) := by
  induction calls with
  | nil =>
    intro reg h
    exact h
  | cons env envs ih =>
    intro reg h
    exact ih _ (get_client_freed_or_built env reg h)

/-- C14, as amended: over any sequence of calls on a fresh registry in which no construction
of a client has failed, there is at most one client for a `gitdir`; once a call for a
`gitdir` has handed out a client, that client is one whose construction went through, and
every later call for the same `gitdir` that passes `repo_check_repospanner` and takes the
registry lock returns `GIT_OK` with that same client (its base URL included), builds no
transport handle and leaves the registry as it is; a call that does not pass the check or the
lock returns an error and no client and leaves the registry as it is; a call changes no
record stored under another `gitdir` and hands out no client of another `gitdir`. -/
theorem registry_same_client (before later : List client_env) (env env2 : client_env)
    (c : repoSpanner_client)
    (hout : (repospanner_get_client env (run_calls before [])).out = some c)
    (hdir : env2.gitdir = env.gitdir)
    (hcheck : repo_check_repospanner env2 = GIT_OK) (hlock : env2.wlock = GIT_OK)
    (hclean : no_failed
      (run_calls later (repospanner_get_client env (run_calls before [])).registry)) :
    (∀ calls, no_failed (run_calls calls []) → gitdirs_nodup (run_calls calls [])) ∧
    built_client c = true ∧
    repospanner_get_client env2
        (run_calls later (repospanner_get_client env (run_calls before [])).registry) =
      ⟨GIT_OK, some c,
        run_calls later (repospanner_get_client env (run_calls before [])).registry, 0⟩ ∧
    (∀ e r, repo_check_repospanner e ≠ GIT_OK ∨ e.wlock ≠ GIT_OK →
      (repospanner_get_client e r).error ≠ GIT_OK ∧ (repospanner_get_client e r).out = none ∧
      (repospanner_get_client e r).registry = r) ∧
    (∀ e r g, no_failed (repospanner_get_client e r).registry → g ≠ e.gitdir →
      client_lookup (repospanner_get_client e r).registry g = client_lookup r g) ∧
    (∀ e r c1, no_failed (repospanner_get_client e r).registry →
      (repospanner_get_client e r).out = some c1 → c1.gitdir = e.gitdir) := by
  have hkeep := run_calls_keeps later _ env.gitdir c
    (get_client_out env (run_calls before []) c hout)
  have hsound : freed_or_built
      (run_calls later (repospanner_get_client env (run_calls before [])).registry) :=
    run_calls_freed_or_built later _
      (get_client_freed_or_built env _
        (run_calls_freed_or_built before [] (by intro x hx; simp at hx)))
  have hmem := client_lookup_mem _ _ c hkeep
  refine ⟨fun calls _ => run_calls_nodup calls [] (by simp [gitdirs_nodup]), ?_, ?_,
    fun e r h => get_client_gated e r h, fun e r g _ hg => get_client_other e r g hg, ?_⟩
  · rcases hsound c hmem with hf | hb
    · rw [hclean c hmem] at hf
      exact Bool.noConfusion hf
    · exact hb
  · rw [← hdir] at hkeep
    exact get_client_found env2 _ c hkeep hcheck hlock
  · intro e r c1 _ h
    exact client_lookup_some _ _ c1 (get_client_out e r c1 h)

theorem registry_same_client_witness :
    (repospanner_get_client slash_env (run_calls [other_env] [])).out = some slash_client ∧
    no_failed (run_calls [other_env, disabled_env]
      (repospanner_get_client slash_env (run_calls [other_env] [])).registry) ∧
    repospanner_get_client slash_env
        (run_calls [other_env, disabled_env]
          (repospanner_get_client slash_env (run_calls [other_env] [])).registry) =
      ⟨GIT_OK, some slash_client,
        run_calls [other_env, disabled_env]
          (repospanner_get_client slash_env (run_calls [other_env] [])).registry, 0⟩ :=
  ⟨by decide, by decide,
    (registry_same_client [other_env] [other_env, disabled_env] slash_env slash_env slash_client
      (by decide) rfl (by decide) (by decide) (by decide)).2.2.1⟩

end Repospanner
